import Mathlib

/-!
Verification of the `GroupedSIMDElastic` hash table (`grouped_simd_elastic.hpp`).

A shallow embedding of the container: the metadata byte array and the entry
array become total functions `Nat → Nat`, `Nat → K`, `Nat → V` (only indices
below the capacity are ever read or written); `size_t`/`uint64_t` arithmetic
is `Nat` with explicit `% 2^64` where the source can wrap; the SSE2 mask
loops (`match_mask` / `empty_mask` iterated via count-trailing-zeros) become
structural recursions over the 16 offsets of a group, which visit exactly the
same slots in exactly the same order.

Modelling notes:
* The per-container salt and the user hash are composed into one opaque
  function `Config.hash`; the source draws the salt from `std::random_device`
  and xors it into `std::hash` output, producing an arbitrary 64-bit value.
* Floating point in the constructor (`std::log2`, `delta * capacity`) and in
  the load-factor test (`size / capacity > 0.8`) is idealised as exact real
  arithmetic on a rational `delta = num/den`; `static_cast<size_t>` of a
  positive value is the floor.  In particular
  `⌊4·log₂(den/num)⌋ = log2floor (den^4 / num^4)` and
  `size/capacity > 0.8 ↔ 4*capacity < 5*size`.
-/

set_option maxHeartbeats 1000000
set_option linter.unusedSectionVars false
set_option linter.unusedVariables false

namespace GroupedSIMDElastic

/-- Group size: SSE2 compares 16 metadata bytes at a time (`GROUP_SIZE`). -/
def GROUP_SIZE : Nat := 16

/-- The EMPTY metadata byte, `0x00`. -/
def EMPTY : Nat := 0

/-- `2^64`: the modulus of `uint64_t`/`size_t` arithmetic in the source. -/
def U64 : Nat := 2 ^ 64

/-- Per-container data fixed at construction: `capacity_`, `max_inserts_`,
`max_probe_limit_`, and the salted hash (`hasher_` composed with `salt_`).
`cap_pos` and `mpl_pos` record that the constructor rejects `capacity = 0`
and always produces a positive probe limit. -/
structure Config (K : Type) where
  capacity : Nat
  max_inserts : Nat
  max_probe_limit : Nat
  hash : K → Nat
  cap_pos : 0 < capacity
  mpl_pos : 0 < max_probe_limit

/-- Mutable container state: `metadata_`, the entry array `table_` split into
its key and value views, `size_` and `max_group_used_`. -/
structure TState (K V : Type) where
  metadata : Nat → Nat
  keyAt : Nat → K
  valAt : Nat → V
  size : Nat
  max_group_used : Nat

variable {K V : Type} [DecidableEq K]

/-- `hash_with_salt`: the salted 64-bit hash value consumed by every probe.
`Config.hash` models `hasher_(key) ^ salt_`; the `% U64` records that the
value is a `uint64_t`. -/
def hash_with_salt (cfg : Config K) (k : K) : Nat :=
  cfg.hash k % U64

/-- `hash_fragment`: the top seven bits of the hash, `(h >> 57) & 0x7F`. -/
def hash_fragment (h : Nat) : Nat :=
  (h >>> 57) &&& 0x7F

/-- `make_metadata`: occupied byte `0x80 | hash_fragment h`. -/
def make_metadata (h : Nat) : Nat :=
  0x80 ||| hash_fragment h

/-- `group_base`: base slot of group `g` for hash `h`.  The source computes
`(h + GROUP_SIZE * group_idx) % capacity_` in 64-bit unsigned arithmetic, so
the sum wraps modulo `2^64` before the modulus by the capacity. -/
def group_base (cfg : Config K) (h g : Nat) : Nat :=
  ((h + GROUP_SIZE * g) % U64) % cfg.capacity

/-- `slot_in_group`: slot at offset `off` from a group base, with wraparound. -/
def slot_in_group (cfg : Config K) (base off : Nat) : Nat :=
  (base + off) % cfg.capacity

/-- The probe position of hash `h` at group `g`, offset `off`. -/
def probePos (cfg : Config K) (h g off : Nat) : Nat :=
  slot_in_group cfg (group_base cfg h g) off

/-- `max_groups`: how many groups insert's fallback and an exhaustive probe
may consult, `min(⌈max_probe_limit/16⌉, ⌈capacity/16⌉)` written as in the
source. -/
def max_groups (cfg : Config K) : Nat :=
  let max_g := (cfg.max_probe_limit + GROUP_SIZE - 1) / GROUP_SIZE
  let max_possible := (cfg.capacity + GROUP_SIZE - 1) / GROUP_SIZE
  if max_g < max_possible then max_g else max_possible

/-- The contiguous-group match loop: iterate `match_mask` from the lowest set
bit, i.e. scan offsets `off, off+1, …` (`n` of them) of the group at base `b`
and return the first slot `b + off` whose metadata byte equals `m` and whose
stored key equals `k`.  Contiguous groups never wrap, so no modulus. -/
def matchScan (cfg : Config K) (s : TState K V) (m : Nat) (k : K) (b : Nat) :
    Nat → Nat → Option Nat
  | _, 0 => none
  | off, n + 1 =>
    if s.metadata (b + off) = m ∧ s.keyAt (b + off) = k then some (b + off)
    else matchScan cfg s m k b (off + 1) n

/-- The contiguous-group `empty_mask` reduced to its lowest set bit: first
offset `off` (scanning `n` offsets from `off`) whose slot `b + off` is EMPTY;
returns the slot index. -/
def firstEmpty (s : TState K V) (b : Nat) : Nat → Nat → Option Nat
  | _, 0 => none
  | off, n + 1 =>
    if s.metadata (b + off) = EMPTY then some (b + off)
    else firstEmpty s b (off + 1) n

/-- All offsets of a contiguous group whose slot is EMPTY, in increasing
order (the `empty_mask` iterated to exhaustion). -/
def emptyOffs (s : TState K V) (b : Nat) : Nat → Nat → List Nat
  | _, 0 => []
  | off, n + 1 =>
    if s.metadata (b + off) = EMPTY then off :: emptyOffs s b (off + 1) n
    else emptyOffs s b (off + 1) n

/-- Result of scanning one group during `find`. -/
inductive ScanRes (V : Type) where
  | found (v : V)
  | absent
  | cont
deriving DecidableEq

/-- `find`, SIMD path for a contiguous group at base `b`: process all
fingerprint matches first (returning the value on a key match), then return
absent if the group holds any EMPTY slot, otherwise continue. -/
def findSimdGroup (cfg : Config K) (s : TState K V) (m : Nat) (k : K) (b : Nat) :
    ScanRes V :=
  match matchScan cfg s m k b 0 GROUP_SIZE with
  | some i => .found (s.valAt i)
  | none =>
    if (firstEmpty s b 0 GROUP_SIZE).isSome then .absent else .cont

/-- `find`, scalar path for a wrapping group: walk the 16 slots one at a
time; EMPTY returns absent at once, a fingerprint match with equal key
returns the value, otherwise continue. -/
def findWrapGroup (cfg : Config K) (s : TState K V) (m : Nat) (k : K) (b : Nat) :
    Nat → Nat → ScanRes V
  | _, 0 => .cont
  | off, n + 1 =>
    let i := (b + off) % cfg.capacity
    if s.metadata i = EMPTY then .absent
    else if s.metadata i = m ∧ s.keyAt i = k then .found (s.valAt i)
    else findWrapGroup cfg s m k b (off + 1) n

/-- `find`, one group: the SIMD path when the group is contiguous
(`base + 16 ≤ capacity`), the scalar path when it wraps. -/
def findGroup (cfg : Config K) (s : TState K V) (m : Nat) (k : K) (h g : Nat) :
    ScanRes V :=
  let b := group_base cfg h g
  if b + GROUP_SIZE ≤ cfg.capacity then findSimdGroup cfg s m k b
  else findWrapGroup cfg s m k b 0 GROUP_SIZE

/-- `find`'s outer loop over a list of group indices. -/
def findLoop (cfg : Config K) (s : TState K V) (m : Nat) (k : K) (h : Nat) :
    List Nat → Option V
  | [] => none
  | g :: gs =>
    match findGroup cfg s m k h g with
    | .found v => some v
    | .absent => none
    | .cont => findLoop cfg s m k h gs

/-- `find`: consult groups `0 … max_group_used`, returning the stored value
or `none` (the source returns `V*` / `nullptr`). -/
def find (cfg : Config K) (s : TState K V) (k : K) : Option V :=
  let h := hash_with_salt cfg k
  findLoop cfg s (make_metadata h) k h (List.range' 0 (s.max_group_used + 1))

/-- `contains`. -/
def contains (cfg : Config K) (s : TState K V) (k : K) : Bool :=
  (find cfg s k).isSome

/-- Write a fresh entry at slot `i`, placed in group `g`: set the metadata
byte, store the entry, bump `size_`, and raise `max_group_used_` if `g`
exceeds it. -/
def placeAt (s : TState K V) (i m : Nat) (k : K) (v : V) (g : Nat) : TState K V :=
  { metadata := fun j => if j = i then m else s.metadata j
    keyAt := fun j => if j = i then k else s.keyAt j
    valAt := fun j => if j = i then v else s.valAt j
    size := s.size + 1
    max_group_used := if s.max_group_used < g then g else s.max_group_used }

/-- In-place value overwrite of an existing entry at slot `i`. -/
def updateAt (s : TState K V) (i : Nat) (v : V) : TState K V :=
  { s with valAt := fun j => if j = i then v else s.valAt j }

/-- An empty-slot candidate recorded during the non-greedy window scan:
group index, offset within the group, and the table slot. -/
structure Cand where
  g : Nat
  slot_offset : Nat
  table_idx : Nat
deriving DecidableEq, Repr

/-- Result of the candidate-collection window: an in-place update happened,
or a list of collected empty-slot candidates. -/
inductive WinRes where
  | update (i : Nat)
  | cands (cs : List Cand)
deriving DecidableEq

/-- Candidate collection over one wrapping group (scalar): walk the 16
slots; record every EMPTY slot as a candidate, return at once on a
fingerprint match with equal key (the collected candidates are discarded). -/
def wrapCollect (cfg : Config K) (s : TState K V) (m : Nat) (k : K) (b g : Nat) :
    Nat → Nat → WinRes
  | _, 0 => .cands []
  | off, n + 1 =>
    let i := (b + off) % cfg.capacity
    if s.metadata i = EMPTY then
      match wrapCollect cfg s m k b g (off + 1) n with
      | .update j => .update j
      | .cands cs => .cands (⟨g, off, i⟩ :: cs)
    else if s.metadata i = m ∧ s.keyAt i = k then .update i
    else wrapCollect cfg s m k b g (off + 1) n

/-- Candidate collection over one contiguous group (SIMD): process the
match mask first (update on a key match), otherwise every EMPTY offset
becomes a candidate. -/
def simdCollect (cfg : Config K) (s : TState K V) (m : Nat) (k : K) (b g : Nat) :
    WinRes :=
  match matchScan cfg s m k b 0 GROUP_SIZE with
  | some i => .update i
  | none => .cands ((emptyOffs s b 0 GROUP_SIZE).map fun off => ⟨g, off, b + off⟩)

/-- Candidate collection over one group, choosing the SIMD or scalar path. -/
def groupCollect (cfg : Config K) (s : TState K V) (m : Nat) (k : K) (h g : Nat) :
    WinRes :=
  let b := group_base cfg h g
  if b + GROUP_SIZE ≤ cfg.capacity then simdCollect cfg s m k b g
  else wrapCollect cfg s m k b g 0 GROUP_SIZE

/-- The non-greedy window loop: visit the listed groups in order while fewer
than 128 candidates are buffered; an in-place update aborts the collection. -/
def windowLoop (cfg : Config K) (s : TState K V) (m : Nat) (k : K) (h : Nat) :
    List Cand → List Nat → WinRes
  | acc, [] => .cands acc
  | acc, g :: gs =>
    if acc.length < 128 then
      match groupCollect cfg s m k h g with
      | .update i => .update i
      | .cands cs => windowLoop cfg s m k h (acc ++ cs) gs
    else .cands acc

/-- The window loop with the 128-candidate guard removed (used to state that
the guard is never the reason collection stops). -/
def windowLoopNG (cfg : Config K) (s : TState K V) (m : Nat) (k : K) (h : Nat) :
    List Cand → List Nat → WinRes
  | acc, [] => .cands acc
  | acc, g :: gs =>
    match groupCollect cfg s m k h g with
    | .update i => .update i
    | .cands cs => windowLoopNG cfg s m k h (acc ++ cs) gs

/-- Best-candidate selection: fold over the remaining candidates keeping the
lexicographically smallest `(group_idx, slot_offset)`, replacing only on a
strict improvement, exactly as the `best_i` loop does. -/
def bestCand (c : Cand) : List Cand → Cand
  | [] => c
  | d :: ds =>
    bestCand (if d.g < c.g ∨ (d.g = c.g ∧ d.slot_offset < c.slot_offset) then d else c) ds

/-- One slot-by-slot group scan of insert's scalar paths (the wrapping first
group and every fallback group): first EMPTY slot is a placement
(`Sum.inl`), a fingerprint match with equal key is an update (`Sum.inr`),
otherwise keep walking. -/
def scalarProbe (cfg : Config K) (s : TState K V) (m : Nat) (k : K) (b : Nat) :
    Nat → Nat → Option (Nat ⊕ Nat)
  | _, 0 => none
  | off, n + 1 =>
    let i := (b + off) % cfg.capacity
    if s.metadata i = EMPTY then some (Sum.inl i)
    else if s.metadata i = m ∧ s.keyAt i = k then some (Sum.inr i)
    else scalarProbe cfg s m k b (off + 1) n

/-- Result of the greedy first-group pass. -/
inductive G0Res where
  | place (i : Nat)
  | update (i : Nat)
  | full
deriving DecidableEq

/-- The greedy first-group pass of `insert`: SIMD (matches first, then the
first empty slot) when group 0 is contiguous, the interleaved scalar walk
when it wraps. -/
def group0 (cfg : Config K) (s : TState K V) (m : Nat) (k : K) (h : Nat) : G0Res :=
  let b := group_base cfg h 0
  if b + GROUP_SIZE ≤ cfg.capacity then
    match matchScan cfg s m k b 0 GROUP_SIZE with
    | some i => .update i
    | none =>
      match firstEmpty s b 0 GROUP_SIZE with
      | some i => .place i
      | none => .full
  else
    match scalarProbe cfg s m k b 0 GROUP_SIZE with
    | some (Sum.inl i) => .place i
    | some (Sum.inr i) => .update i
    | none => .full

/-- Result of the fallback scan. -/
inductive FBRes where
  | place (i g : Nat)
  | update (i : Nat)
  | fail
deriving DecidableEq

/-- The fallback loop of `insert`: scan the listed groups slot by slot. -/
def fallbackLoop (cfg : Config K) (s : TState K V) (m : Nat) (k : K) (h : Nat) :
    List Nat → FBRes
  | [] => .fail
  | g :: gs =>
    match scalarProbe cfg s m k (group_base cfg h g) 0 GROUP_SIZE with
    | some (Sum.inl i) => .place i g
    | some (Sum.inr i) => .update i
    | none => fallbackLoop cfg s m k h gs

/-- The load-dependent width of the non-greedy window:
`(load > 0.8 ? 8 : 4)` capped at `max_groups()`; `size/capacity > 0.8` is
`4*capacity < 5*size` in exact arithmetic. -/
def window_width (cfg : Config K) (s : TState K V) : Nat :=
  min (if 4 * cfg.capacity < 5 * s.size then 8 else 4) (max_groups cfg)

/-- The candidate-collection phase of `insert`: groups `1 … window_width-1`. -/
def window_result (cfg : Config K) (s : TState K V) (m : Nat) (k : K) (h : Nat) :
    WinRes :=
  windowLoop cfg s m k h [] (List.range' 1 (window_width cfg s - 1))

/-- `insert`: the size gate, the greedy first group, the non-greedy
candidate window with best-candidate placement, and the fallback scan, in
the source's order.  Returns the success flag and the new state. -/
def insert (cfg : Config K) (s : TState K V) (k : K) (v : V) : Bool × TState K V :=
  if cfg.max_inserts ≤ s.size then (false, s)
  else
    let h := hash_with_salt cfg k
    let m := make_metadata h
    match group0 cfg s m k h with
    | .update i => (true, updateAt s i v)
    | .place i => (true, placeAt s i m k v 0)
    | .full =>
      let w := window_width cfg s
      match window_result cfg s m k h with
      | .update i => (true, updateAt s i v)
      | .cands [] =>
        match fallbackLoop cfg s m k h (List.range' w (max_groups cfg - w)) with
        | .place i g => (true, placeAt s i m k v g)
        | .update i => (true, updateAt s i v)
        | .fail => (false, s)
      | .cands (c :: cs) =>
        let best := bestCand c cs
        (true, placeAt s best.table_idx m k v best.g)

/-- `max_probe_used`: derived statistic. -/
def max_probe_used (s : TState K V) : Nat :=
  s.max_group_used * GROUP_SIZE + GROUP_SIZE - 1

/-- Fuel-driven binary logarithm: `log2aux fuel n = ⌊log₂ n⌋` whenever
`0 < n ≤ fuel` (structural recursion on the fuel, so it reduces in proofs). -/
def log2aux : Nat → Nat → Nat
  | 0, _ => 0
  | fuel + 1, n => if n < 2 then 0 else log2aux fuel (n / 2) + 1

/-- `⌊log₂ n⌋` for `n ≥ 1`. -/
def log2floor (n : Nat) : Nat :=
  log2aux n n

/-- The constructor, for a rational `delta = num/den` with
`0 < num < den`:
`max_inserts = capacity - ⌊delta * capacity⌋` and
`max_probe_limit = 4·log₂(1/delta)` truncated, then clamped from below by
`GROUP_SIZE` and from above by `capacity` (in that order).
`⌊4·log₂(den/num)⌋ = ⌊log₂(den⁴/num⁴)⌋ = log2floor (den⁴/num⁴)`. -/
def mkConfig (hash : K → Nat) (C num den : Nat)
    (hC : 0 < C) (hnum : 0 < num) (hlt : num < den) : Config K :=
  { capacity := C
    max_inserts := C - num * C / den
    max_probe_limit := min C (max GROUP_SIZE (log2floor (den ^ 4 / num ^ 4)))
    hash := hash
    cap_pos := hC
    mpl_pos := by
      have h16 : 0 < max GROUP_SIZE (log2floor (den ^ 4 / num ^ 4)) := by
        have : (0:Nat) < GROUP_SIZE := by decide
        omega
      exact lt_min hC h16 }

/-- The freshly constructed state: all metadata zero-filled, the entry array
default-constructed with `d`/`v0`. -/
def initState (d : K) (v0 : V) : TState K V :=
  { metadata := fun _ => 0
    keyAt := fun _ => d
    valAt := fun _ => v0
    size := 0
    max_group_used := 0 }

/-- States reachable from a freshly constructed container by `insert` calls
(`find`/`contains` do not mutate). -/
inductive Reachable (cfg : Config K) (d : K) (v0 : V) : TState K V → Prop where
  | init : Reachable cfg d v0 (initState d v0)
  | step (s : TState K V) (k : K) (v : V) :
      Reachable cfg d v0 s → Reachable cfg d v0 (insert cfg s k v).2

/-- Number of occupied slots. -/
def occCount (cfg : Config K) (s : TState K V) : Nat :=
  (List.range cfg.capacity).countP fun i => decide (s.metadata i ≠ 0)

/-- Number of EMPTY slots. -/
def emptyCount (cfg : Config K) (s : TState K V) : Nat :=
  (List.range cfg.capacity).countP fun i => decide (s.metadata i = 0)

/-- Strict lexicographic order on probe positions `(group, offset)`. -/
def lexLt (a b : Nat × Nat) : Prop :=
  a.1 < b.1 ∨ (a.1 = b.1 ∧ a.2 < b.2)

instance : DecidablePred (fun p : (Nat × Nat) × Nat × Nat => lexLt p.1 p.2) := by
  intro p; unfold lexLt; infer_instance

/-- The slot holds a fingerprint match for metadata byte `m` and key `k`. -/
def matchesKey (s : TState K V) (m : Nat) (k : K) (i : Nat) : Prop :=
  s.metadata i = m ∧ s.keyAt i = k

/-- The state invariant maintained by every reachable state.

`wf`: every occupied slot's metadata byte is `make_metadata` of its stored
key's hash.  `nodup`: no key is stored twice.  `located`: every stored key
sits at a probe position within `max_group_used` groups of its own hash, and
every strictly earlier probe position is occupied.  `sz`: `size_` counts the
occupied slots.  `mgu_lt`: the high-water mark stays below `max_groups`. -/
structure Inv (cfg : Config K) (s : TState K V) : Prop where
  wf : ∀ i < cfg.capacity, s.metadata i ≠ 0 →
    s.metadata i = make_metadata (hash_with_salt cfg (s.keyAt i))
  nodup : ∀ i < cfg.capacity, ∀ j < cfg.capacity,
    s.metadata i ≠ 0 → s.metadata j ≠ 0 → s.keyAt i = s.keyAt j → i = j
  located : ∀ i < cfg.capacity, s.metadata i ≠ 0 →
    ∃ g off, g ≤ s.max_group_used ∧ g < max_groups cfg ∧ off < GROUP_SIZE ∧
      probePos cfg (hash_with_salt cfg (s.keyAt i)) g off = i ∧
      ∀ g' off', off' < GROUP_SIZE → lexLt (g', off') (g, off) →
        s.metadata (probePos cfg (hash_with_salt cfg (s.keyAt i)) g' off') ≠ 0
  sz : s.size = occCount cfg s
  mgu_lt : s.max_group_used < max_groups cfg

/-- Modelled from the spec (§4.5, edge case): the SIMD contiguous-group scan
semantics — all fingerprint matches processed first, then absent if the
group holds any EMPTY slot — applied to the same 16 possibly-wrapping slots
that the scalar path walks.  Used only to compare the two lookup paths. -/
def findGroupSpecSIMD (cfg : Config K) (s : TState K V) (m : Nat) (k : K) (b : Nat) :
    ScanRes V :=
  match matchScanWrap cfg s m k b 0 GROUP_SIZE with
  | some i => .found (s.valAt i)
  | none =>
    if (firstEmptyWrap cfg s b 0 GROUP_SIZE).isSome then .absent else .cont
where
  /-- first fingerprint-and-key match among the wrapped slots. -/
  matchScanWrap (cfg : Config K) (s : TState K V) (m : Nat) (k : K) (b : Nat) :
      Nat → Nat → Option Nat
    | _, 0 => none
    | off, n + 1 =>
      let i := (b + off) % cfg.capacity
      if s.metadata i = m ∧ s.keyAt i = k then some i
      else matchScanWrap cfg s m k b (off + 1) n
  /-- first EMPTY slot among the wrapped slots. -/
  firstEmptyWrap (cfg : Config K) (s : TState K V) (b : Nat) :
      Nat → Nat → Option Nat
    | _, 0 => none
    | off, n + 1 =>
      let i := (b + off) % cfg.capacity
      if s.metadata i = EMPTY then some i
      else firstEmptyWrap cfg s b (off + 1) n

/-- The candidates a full scan of one group contributes: one entry
`⟨g, off, (b+off) % capacity⟩` per EMPTY offset, in offset order.  Both the
SIMD and the scalar collection produce exactly this list when no key match
aborts them. -/
def candList (cfg : Config K) (s : TState K V) (g b : Nat) : Nat → Nat → List Cand
  | _, 0 => []
  | off, n + 1 =>
    if s.metadata ((b + off) % cfg.capacity) = 0 then
      ⟨g, off, (b + off) % cfg.capacity⟩ :: candList cfg s g b (off + 1) n
    else candList cfg s g b (off + 1) n

/-- All candidates contributed by a list of groups, in group order. -/
def windowCands (cfg : Config K) (s : TState K V) (h : Nat) : List Nat → List Cand
  | [] => []
  | g :: gs =>
    candList cfg s g (group_base cfg h g) 0 GROUP_SIZE ++ windowCands cfg s h gs

/-- Modelled from the spec (§3): `max(16, min(C, ⌈4·log₂(1/delta)⌉))` with
the exact mathematical ceiling, for `delta = num/den`;
`⌈4·log₂(den/num)⌉ = Nat.clog 2 ⌈den⁴/num⁴⌉`.  Used only to compare with
the constructor. -/
def spec_max_probe_limit (C num den : Nat) : Nat :=
  max GROUP_SIZE (min C (Nat.clog 2 ((den ^ 4 + num ^ 4 - 1) / num ^ 4)))

/-! ### Concrete containers used in the concrete evaluations -/

/-- Fill a `Nat`-keyed table with keys `0, 1, …, n-1`, all mapped to `100`. -/
def fillTable (cfg : Config Nat) : Nat → TState Nat Nat
  | 0 => initState 0 0
  | n + 1 => (insert cfg (fillTable cfg n) n 100).2

/-- Capacity 4, `delta = 1/2`, identity hash. -/
def cfgW4 : Config Nat := mkConfig id 4 1 2 (by decide) (by decide) (by decide)

/-- Capacity 1, `delta = 1/2` (`max_inserts = 1`), identity hash. -/
def cfgB1 : Config Nat := mkConfig id 1 1 2 (by decide) (by decide) (by decide)

/-- The capacity-1 container after storing `(0, 5)`: it is exactly full. -/
def tFull1 : TState Nat Nat := (insert cfgB1 (initState 0 0) 0 5).2

/-- Capacity 18, `delta = 1/18` (`max_inserts = 17`, a single probe group),
with a constant hash: all keys collide into one 16-slot group. -/
def cfgC18 : Config Nat := mkConfig (fun _ => 0) 18 1 18 (by decide) (by decide) (by decide)

/-- Capacity 10, `delta = 15/100` (`max_inserts = 9`), identity hash. -/
def cfgD10 : Config Nat := mkConfig id 10 15 100 (by decide) (by decide) (by decide)

/-- Capacity 20, `delta = 1/2`, identity hash: base 10 starts a wrapping group. -/
def cfgE20 : Config Nat := mkConfig id 20 1 2 (by decide) (by decide) (by decide)

/-- A 20-slot state whose wrapping group at base 10 has slot 10 EMPTY and a
fingerprint-and-key match for key 5 at slot 11: the scalar walk hits the
EMPTY slot first, the SIMD mask semantics would process the match first. -/
def sWrap20 : TState Nat Nat :=
  { metadata := fun j => if j = 11 then 0x80 else if j = 10 then 0 else 0x81
    keyAt := fun j => if j = 11 then 5 else 999
    valAt := fun _ => 42
    size := 19
    max_group_used := 0 }

/-- Capacity 10, `delta = 1/2`, identity hash (used for the group-base wrap). -/
def cfgF10 : Config Nat := mkConfig id 10 1 2 (by decide) (by decide) (by decide)

/-! ### Basic facts about the metadata codec and the probe schedule -/

theorem make_metadata_ne_zero (h : Nat) : make_metadata h ≠ 0 := by
  intro he
  have h7 := congrArg (fun n => n.testBit 7) he
  simp only [make_metadata, Nat.testBit_lor] at h7
  rw [show Nat.testBit 0x80 7 = true from by decide] at h7
  simp at h7

theorem group_base_lt (cfg : Config K) (h g : Nat) : group_base cfg h g < cfg.capacity :=
  Nat.mod_lt _ cfg.cap_pos

theorem probePos_lt (cfg : Config K) (h g off : Nat) : probePos cfg h g off < cfg.capacity :=
  Nat.mod_lt _ cfg.cap_pos

theorem probePos_eq (cfg : Config K) (h g off : Nat) :
    probePos cfg h g off = (group_base cfg h g + off) % cfg.capacity := rfl

/-- In a contiguous group the raw index `base + off` is already in range. -/
theorem probePos_contig (cfg : Config K) (h g off : Nat)
    (hc : group_base cfg h g + GROUP_SIZE ≤ cfg.capacity) (ho : off < GROUP_SIZE) :
    probePos cfg h g off = group_base cfg h g + off := by
  unfold probePos slot_in_group
  exact Nat.mod_eq_of_lt (by omega)

theorem max_groups_pos (cfg : Config K) : 0 < max_groups cfg := by
  have h1 := cfg.cap_pos
  have h2 := cfg.mpl_pos
  unfold max_groups GROUP_SIZE
  simp only
  split <;> omega

theorem max_groups_eq_min (cfg : Config K) :
    max_groups cfg = min ((cfg.max_probe_limit + 15) / 16) ((cfg.capacity + 15) / 16) := by
  unfold max_groups GROUP_SIZE
  simp only
  split <;> omega

theorem lexLt_trichotomy (a b : Nat × Nat) : lexLt a b ∨ a = b ∨ lexLt b a := by
  rcases a with ⟨a1, a2⟩
  rcases b with ⟨b1, b2⟩
  simp only [lexLt, Prod.mk.injEq]
  omega

@[simp] theorem placeAt_metadata (s : TState K V) (i m : Nat) (k : K) (v : V) (g j : Nat) :
    (placeAt s i m k v g).metadata j = if j = i then m else s.metadata j := rfl

@[simp] theorem placeAt_keyAt (s : TState K V) (i m : Nat) (k : K) (v : V) (g j : Nat) :
    (placeAt s i m k v g).keyAt j = if j = i then k else s.keyAt j := rfl

@[simp] theorem placeAt_valAt (s : TState K V) (i m : Nat) (k : K) (v : V) (g j : Nat) :
    (placeAt s i m k v g).valAt j = if j = i then v else s.valAt j := rfl

@[simp] theorem placeAt_size (s : TState K V) (i m : Nat) (k : K) (v : V) (g : Nat) :
    (placeAt s i m k v g).size = s.size + 1 := rfl

@[simp] theorem placeAt_mgu (s : TState K V) (i m : Nat) (k : K) (v : V) (g : Nat) :
    (placeAt s i m k v g).max_group_used =
      if s.max_group_used < g then g else s.max_group_used := rfl

@[simp] theorem updateAt_metadata (s : TState K V) (i : Nat) (v : V) :
    (updateAt s i v).metadata = s.metadata := rfl

@[simp] theorem updateAt_keyAt (s : TState K V) (i : Nat) (v : V) :
    (updateAt s i v).keyAt = s.keyAt := rfl

@[simp] theorem updateAt_valAt (s : TState K V) (i : Nat) (v : V) (j : Nat) :
    (updateAt s i v).valAt j = if j = i then v else s.valAt j := rfl

@[simp] theorem updateAt_size (s : TState K V) (i : Nat) (v : V) :
    (updateAt s i v).size = s.size := rfl

@[simp] theorem updateAt_mgu (s : TState K V) (i : Nat) (v : V) :
    (updateAt s i v).max_group_used = s.max_group_used := rfl

/-! ### Characterising the group scans -/

section Scans

variable (cfg : Config K) (s : TState K V) (m : Nat) (k : K) (b : Nat)

theorem matchScan_eq_none_iff :
    ∀ n off, matchScan cfg s m k b off n = none ↔
      ∀ j, off ≤ j → j < off + n →
        ¬(s.metadata (b + j) = m ∧ s.keyAt (b + j) = k) := by
  intro n
  induction n with
  | zero =>
    intro off
    constructor
    · intro _ j h1 h2
      omega
    · intro _
      rfl
  | succ n ih =>
    intro off
    rw [matchScan]
    split
    · rename_i hcond
      constructor
      · intro hcontra
        cases hcontra
      · intro hall
        exact absurd hcond (hall off le_rfl (by omega))
    · rename_i hcond
      rw [ih (off + 1)]
      constructor
      · intro hall j h1 h2
        rcases Nat.eq_or_lt_of_le h1 with rfl | hlt
        · exact hcond
        · exact hall j hlt (by omega)
      · intro hall j h1 h2
        exact hall j (by omega) (by omega)

theorem matchScan_eq_some :
    ∀ n off i, matchScan cfg s m k b off n = some i →
      ∃ j, off ≤ j ∧ j < off + n ∧ i = b + j ∧
        s.metadata (b + j) = m ∧ s.keyAt (b + j) = k := by
  intro n
  induction n with
  | zero =>
    intro off i hcontra
    cases hcontra
  | succ n ih =>
    intro off i hsome
    rw [matchScan] at hsome
    split at hsome
    · rename_i hcond
      cases hsome
      exact ⟨off, le_rfl, by omega, rfl, hcond⟩
    · obtain ⟨j, h1, h2, h3⟩ := ih (off + 1) i hsome
      exact ⟨j, by omega, by omega, h3⟩

theorem matchScan_of_mem :
    ∀ n off, (∃ j, off ≤ j ∧ j < off + n ∧
        s.metadata (b + j) = m ∧ s.keyAt (b + j) = k) →
      ∃ i, matchScan cfg s m k b off n = some i := by
  intro n
  induction n with
  | zero =>
    rintro off ⟨j, h1, h2, -⟩
    omega
  | succ n ih
  =>
    intro off hex
    rw [matchScan]
    split
    · exact ⟨_, rfl⟩
    · rename_i hcond
      obtain ⟨j, h1, h2, h3⟩ := hex
      refine ih (off + 1) ⟨j, ?_, by omega, h3⟩
      rcases Nat.eq_or_lt_of_le h1 with rfl | hlt
      · exact absurd h3 hcond
      · omega

theorem firstEmpty_eq_none_iff :
    ∀ n off, firstEmpty s b off n = none ↔
      ∀ j, off ≤ j → j < off + n → s.metadata (b + j) ≠ 0 := by
  intro n
  induction n with
  | zero =>
    intro off
    constructor
    · intro _ j h1 h2
      omega
    · intro _
      rfl
  | succ n ih =>
    intro off
    rw [firstEmpty]
    split
    · rename_i hcond
      constructor
      · intro hcontra
        cases hcontra
      · intro hall
        exact absurd hcond (hall off le_rfl (by omega))
    · rename_i hcond
      rw [ih (off + 1)]
      constructor
      · intro hall j h1 h2
        rcases Nat.eq_or_lt_of_le h1 with rfl | hlt
        · simpa [EMPTY] using hcond
        · exact hall j hlt (by omega)
      · intro hall j h1 h2
        exact hall j (by omega) (by omega)

theorem firstEmpty_eq_some :
    ∀ n off i, firstEmpty s b off n = some i →
      ∃ j, off ≤ j ∧ j < off + n ∧ i = b + j ∧ s.metadata (b + j) = 0 ∧
        ∀ j', off ≤ j' → j' < j → s.metadata (b + j') ≠ 0 := by
  intro n
  induction n with
  | zero =>
    intro off i hcontra
    cases hcontra
  | succ n ih =>
    intro off i hsome
    rw [firstEmpty] at hsome
    split at hsome
    · rename_i hcond
      cases hsome
      exact ⟨off, le_rfl, by omega, rfl, hcond, fun j' h1 h2 => by omega⟩
    · rename_i hcond
      obtain ⟨j, h1, h2, h3, h4, h5⟩ := ih (off + 1) i hsome
      refine ⟨j, by omega, by omega, h3, h4, ?_⟩
      intro j' hj1 hj2
      rcases Nat.eq_or_lt_of_le hj1 with rfl | hlt
      · simpa [EMPTY] using hcond
      · exact h5 j' hlt hj2

theorem mem_emptyOffs :
    ∀ n off j, j ∈ emptyOffs s b off n ↔
      (off ≤ j ∧ j < off + n ∧ s.metadata (b + j) = 0) := by
  intro n
  induction n with
  | zero =>
    intro off j
    simp [emptyOffs]
    omega
  | succ n ih =>
    intro off j
    rw [emptyOffs]
    split
    · rename_i hcond
      simp only [List.mem_cons, ih (off + 1)]
      constructor
      · rintro (rfl | ⟨h1, h2, h3⟩)
        · exact ⟨le_rfl, by omega, by simpa [EMPTY] using hcond⟩
        · exact ⟨by omega, by omega, h3⟩
      · rintro ⟨h1, h2, h3⟩
        rcases Nat.eq_or_lt_of_le h1 with rfl | hlt
        · exact Or.inl rfl
        · exact Or.inr ⟨hlt, by omega, h3⟩
    · rename_i hcond
      rw [ih (off + 1)]
      constructor
      · rintro ⟨h1, h2, h3⟩
        exact ⟨by omega, by omega, h3⟩
      · rintro ⟨h1, h2, h3⟩
        rcases Nat.eq_or_lt_of_le h1 with rfl | hlt
        · exact absurd h3 (by simpa [EMPTY] using hcond)
        · exact ⟨hlt, by omega, h3⟩

theorem scalarProbe_eq_none_iff :
    ∀ n off, scalarProbe cfg s m k b off n = none ↔
      ∀ j, off ≤ j → j < off + n →
        s.metadata ((b + j) % cfg.capacity) ≠ 0 ∧
        ¬matchesKey s m k ((b + j) % cfg.capacity) := by
  intro n
  induction n with
  | zero =>
    intro off
    constructor
    · intro _ j h1 h2
      omega
    · intro _
      rfl
  | succ n ih =>
    intro off
    rw [scalarProbe]
    split
    · rename_i hcond
      constructor
      · intro hcontra
        cases hcontra
      · intro hall
        exact absurd (by simpa [EMPTY] using hcond) (hall off le_rfl (by omega)).1
    · split
      · rename_i hcond
        constructor
        · intro hcontra
          cases hcontra
        · intro hall
          exact absurd hcond (hall off le_rfl (by omega)).2
      · rename_i hc1 hc2
        rw [ih (off + 1)]
        constructor
        · intro hall j h1 h2
          rcases Nat.eq_or_lt_of_le h1 with rfl | hlt
          · exact ⟨by simpa [EMPTY] using hc1, hc2⟩
          · exact hall j hlt (by omega)
        · intro hall j h1 h2
          exact hall j (by omega) (by omega)

theorem scalarProbe_eq_inl :
    ∀ n off i, scalarProbe cfg s m k b off n = some (Sum.inl i) →
      ∃ j, off ≤ j ∧ j < off + n ∧ i = (b + j) % cfg.capacity ∧
        s.metadata i = 0 ∧
        ∀ j', off ≤ j' → j' < j →
          s.metadata ((b + j') % cfg.capacity) ≠ 0 ∧
          ¬matchesKey s m k ((b + j') % cfg.capacity) := by
  intro n
  induction n with
  | zero =>
    intro off i hcontra
    cases hcontra
  | succ n ih =>
    intro off i hsome
    rw [scalarProbe] at hsome
    split at hsome
    · rename_i hcond
      cases hsome
      exact ⟨off, le_rfl, by omega, rfl, by simpa [EMPTY] using hcond,
        fun j' h1 h2 => by omega⟩
    · split at hsome
      · cases hsome
      · rename_i hc1 hc2
        obtain ⟨j, h1, h2, h3, h4, h5⟩ := ih (off + 1) i hsome
        refine ⟨j, by omega, by omega, h3, h4, ?_⟩
        intro j' hj1 hj2
        rcases Nat.eq_or_lt_of_le hj1 with rfl | hlt
        · exact ⟨by simpa [EMPTY] using hc1, hc2⟩
        · exact h5 j' hlt hj2

theorem scalarProbe_eq_inr :
    ∀ n off i, scalarProbe cfg s m k b off n = some (Sum.inr i) →
      ∃ j, off ≤ j ∧ j < off + n ∧ i = (b + j) % cfg.capacity ∧
        matchesKey s m k i := by
  intro n
  induction n with
  | zero =>
    intro off i hcontra
    cases hcontra
  | succ n ih =>
    intro off i hsome
    rw [scalarProbe] at hsome
    split at hsome
    · cases hsome
    · split at hsome
      · rename_i hcond
        cases hsome
        exact ⟨off, le_rfl, by omega, rfl, hcond⟩
      · obtain ⟨j, h1, h2, h3⟩ := ih (off + 1) i hsome
        exact ⟨j, by omega, by omega, h3⟩

end Scans

/-! ### Lexicographic probe order -/

theorem lexLt_trans {a b c : Nat × Nat} : lexLt a b → lexLt b c → lexLt a c := by
  rcases a with ⟨a1, a2⟩
  rcases b with ⟨b1, b2⟩
  rcases c with ⟨c1, c2⟩
  simp only [lexLt]
  omega

theorem not_lexLt_self (a : Nat × Nat) : ¬lexLt a a := by
  rcases a with ⟨a1, a2⟩
  simp only [lexLt]
  omega

theorem lexLt_of_not_lexLt_of_lexLt {a b x : Nat × Nat} :
    ¬lexLt a b → lexLt a x → lexLt b x := by
  rcases a with ⟨a1, a2⟩
  rcases b with ⟨b1, b2⟩
  rcases x with ⟨x1, x2⟩
  simp only [lexLt]
  omega

/-! ### The candidate lists -/

section Collect

variable (cfg : Config K) (s : TState K V) (m : Nat) (k : K) (b g : Nat)

theorem mem_candList :
    ∀ n off c, c ∈ candList cfg s g b off n ↔
      ∃ j, off ≤ j ∧ j < off + n ∧ c = ⟨g, j, (b + j) % cfg.capacity⟩ ∧
        s.metadata ((b + j) % cfg.capacity) = 0 := by
  intro n
  induction n with
  | zero =>
    intro off c
    simp only [candList, List.not_mem_nil, false_iff]
    rintro ⟨j, h1, h2, -⟩
    omega
  | succ n ih =>
    intro off c
    rw [candList]
    split
    · rename_i hcond
      simp only [List.mem_cons, ih (off + 1)]
      constructor
      · rintro (rfl | ⟨j, h1, h2, h3, h4⟩)
        · exact ⟨off, le_rfl, by omega, rfl, hcond⟩
        · exact ⟨j, by omega, by omega, h3, h4⟩
      · rintro ⟨j, h1, h2, h3, h4⟩
        rcases Nat.eq_or_lt_of_le h1 with rfl | hlt
        · exact Or.inl h3
        · exact Or.inr ⟨j, hlt, by omega, h3, h4⟩
    · rename_i hcond
      rw [ih (off + 1)]
      constructor
      · rintro ⟨j, h1, h2, h3, h4⟩
        exact ⟨j, by omega, by omega, h3, h4⟩
      · rintro ⟨j, h1, h2, h3, h4⟩
        rcases Nat.eq_or_lt_of_le h1 with rfl | hlt
        · exact absurd h4 hcond
        · exact ⟨j, hlt, by omega, h3, h4⟩

theorem candList_length_le : ∀ n off, (candList cfg s g b off n).length ≤ n := by
  intro n
  induction n with
  | zero =>
    intro off
    simp [candList]
  | succ n ih =>
    intro off
    rw [candList]
    split
    · simpa using Nat.succ_le_succ (ih (off + 1))
    · exact le_trans (ih (off + 1)) (by omega)

theorem candList_eq_nil :
    ∀ n off, (∀ j, off ≤ j → j < off + n → s.metadata ((b + j) % cfg.capacity) ≠ 0) →
      candList cfg s g b off n = [] := by
  intro n
  induction n with
  | zero =>
    intro off _
    rfl
  | succ n ih =>
    intro off hall
    rw [candList]
    rw [if_neg (hall off le_rfl (by omega))]
    exact ih (off + 1) fun j h1 h2 => hall j (by omega) (by omega)

theorem wrapCollect_update :
    ∀ n off i, wrapCollect cfg s m k b g off n = .update i →
      ∃ j, off ≤ j ∧ j < off + n ∧ i = (b + j) % cfg.capacity ∧
        matchesKey s m k i := by
  intro n
  induction n with
  | zero =>
    intro off i hcontra
    cases hcontra
  | succ n ih =>
    intro off i hup
    rw [wrapCollect] at hup
    split at hup
    · split at hup
      · rename_i hrec
        cases hup
        obtain ⟨j, h1, h2, h3⟩ := ih (off + 1) i hrec
        exact ⟨j, by omega, by omega, h3⟩
      · cases hup
    · split at hup
      · rename_i hcond
        cases hup
        exact ⟨off, le_rfl, by omega, rfl, hcond⟩
      · obtain ⟨j, h1, h2, h3⟩ := ih (off + 1) i hup
        exact ⟨j, by omega, by omega, h3⟩

theorem wrapCollect_clean :
    ∀ n off, (∀ j, off ≤ j → j < off + n → ¬matchesKey s m k ((b + j) % cfg.capacity)) →
      wrapCollect cfg s m k b g off n = .cands (candList cfg s g b off n) := by
  intro n
  induction n with
  | zero =>
    intro off _
    rfl
  | succ n ih =>
    intro off hclean
    rw [wrapCollect, candList]
    have hrec := ih (off + 1) fun j h1 h2 => hclean j (by omega) (by omega)
    split
    · rename_i hemp
      have h0 : s.metadata ((b + off) % cfg.capacity) = 0 := hemp
      rw [hrec, if_pos h0]
    · rename_i hne
      have h0 : ¬s.metadata ((b + off) % cfg.capacity) = 0 := hne
      rw [if_neg h0]
      rw [if_neg (show ¬(s.metadata ((b + off) % cfg.capacity) = m ∧
            s.keyAt ((b + off) % cfg.capacity) = k) from
          fun hmk => hclean off le_rfl (by omega) hmk)]
      exact hrec

theorem wrapCollect_cands_clean (hm : m ≠ 0) :
    ∀ n off cs, wrapCollect cfg s m k b g off n = .cands cs →
      ∀ j, off ≤ j → j < off + n → ¬matchesKey s m k ((b + j) % cfg.capacity) := by
  intro n
  induction n with
  | zero =>
    intro off cs _ j h1 h2
    omega
  | succ n ih =>
    intro off cs hcs j h1 h2
    rw [wrapCollect] at hcs
    split at hcs
    · rename_i hemp
      rcases Nat.eq_or_lt_of_le h1 with rfl | hlt
      · intro hmk
        exact hm (hmk.1.symm.trans hemp)
      · split at hcs
        · cases hcs
        · rename_i hrec
          exact ih (off + 1) _ hrec j hlt (by omega)
    · split at hcs
      · cases hcs
      · rename_i hc1 hc2
        rcases Nat.eq_or_lt_of_le h1 with rfl | hlt
        · exact hc2
        · exact ih (off + 1) cs hcs j hlt (by omega)

theorem wrapCollect_cands_length :
    ∀ n off cs, wrapCollect cfg s m k b g off n = .cands cs → cs.length ≤ n := by
  intro n
  induction n with
  | zero =>
    intro off cs hcs
    cases hcs
    exact le_rfl
  | succ n ih =>
    intro off cs hcs
    rw [wrapCollect] at hcs
    split at hcs
    · split at hcs
      · cases hcs
      · rename_i hrec
        cases hcs
        simpa using Nat.succ_le_succ (ih (off + 1) _ hrec)
    · split at hcs
      · cases hcs
      · exact le_trans (ih (off + 1) cs hcs) (by omega)

theorem emptyOffs_length_le : ∀ n off, (emptyOffs s b off n).length ≤ n := by
  intro n
  induction n with
  | zero =>
    intro off
    simp [emptyOffs]
  | succ n ih =>
    intro off
    rw [emptyOffs]
    split
    · simpa using Nat.succ_le_succ (ih (off + 1))
    · exact le_trans (ih (off + 1)) (by omega)

theorem emptyOffs_map_eq_candList :
    ∀ n off, off + n ≤ GROUP_SIZE → b + GROUP_SIZE ≤ cfg.capacity →
      (emptyOffs s b off n).map (fun o => (⟨g, o, b + o⟩ : Cand)) =
        candList cfg s g b off n := by
  intro n
  induction n with
  | zero =>
    intro off _ _
    rfl
  | succ n ih =>
    intro off hn hc
    have hmod : (b + off) % cfg.capacity = b + off :=
      Nat.mod_eq_of_lt (by omega)
    rw [emptyOffs, candList, hmod]
    by_cases hemp : s.metadata (b + off) = 0
    · have hemp' : s.metadata (b + off) = EMPTY := hemp
      rw [if_pos hemp', if_pos hemp, List.map_cons, ih (off + 1) (by omega) hc]
    · have hemp' : ¬s.metadata (b + off) = EMPTY := hemp
      rw [if_neg hemp', if_neg hemp]
      exact ih (off + 1) (by omega) hc

end Collect

/-! ### Characterising the per-group collection and the window loop -/

section Window

variable (cfg : Config K) (s : TState K V) (m : Nat) (k : K)

theorem groupCollect_update (hh g i : Nat) :
    groupCollect cfg s m k hh g = .update i →
      ∃ off, off < GROUP_SIZE ∧ i = probePos cfg hh g off ∧ matchesKey s m k i := by
  intro hup
  simp only [groupCollect] at hup
  split at hup
  · rename_i hc
    unfold simdCollect at hup
    split at hup
    · rename_i j heq
      obtain ⟨j', h1, h2, h3, h4, h5⟩ := matchScan_eq_some cfg s m k _ GROUP_SIZE 0 _ heq
      cases hup
      refine ⟨j', by omega, ?_, ?_⟩
      · rw [probePos_contig cfg hh g j' hc (by omega), h3]
      · rw [h3]
        exact ⟨h4, h5⟩
    · cases hup
  · rename_i hc
    obtain ⟨j, h1, h2, h3, h4⟩ := wrapCollect_update cfg s m k _ g GROUP_SIZE 0 i hup
    exact ⟨j, by omega, by rw [probePos_eq, h3], h4⟩

theorem groupCollect_cands_length (hh g : Nat) (cs : List Cand) :
    groupCollect cfg s m k hh g = .cands cs → cs.length ≤ GROUP_SIZE := by
  intro hcs
  simp only [groupCollect] at hcs
  split at hcs
  · unfold simdCollect at hcs
    split at hcs
    · cases hcs
    · cases hcs
      simpa using emptyOffs_length_le s _ GROUP_SIZE 0
  · exact wrapCollect_cands_length cfg s m k _ g GROUP_SIZE 0 cs hcs

theorem groupCollect_cands (hm : m ≠ 0) (hh g : Nat) (cs : List Cand) :
    groupCollect cfg s m k hh g = .cands cs →
      (∀ off, off < GROUP_SIZE → ¬matchesKey s m k (probePos cfg hh g off)) ∧
      cs = candList cfg s g (group_base cfg hh g) 0 GROUP_SIZE := by
  intro hcs
  simp only [groupCollect] at hcs
  split at hcs
  · rename_i hc
    unfold simdCollect at hcs
    split at hcs
    · cases hcs
    · rename_i heq
      cases hcs
      constructor
      · intro off hoff hmk
        rw [probePos_contig cfg hh g off hc hoff] at hmk
        exact (matchScan_eq_none_iff cfg s m k _ GROUP_SIZE 0).mp heq off (by omega)
          (by omega) hmk
      · exact emptyOffs_map_eq_candList cfg s _ _ GROUP_SIZE 0 (by omega) hc
  · rename_i hc
    have hclean := wrapCollect_cands_clean cfg s m k _ g hm GROUP_SIZE 0 cs hcs
    have hclean' : ∀ off, off < GROUP_SIZE → ¬matchesKey s m k (probePos cfg hh g off) := by
      intro off hoff
      rw [probePos_eq]
      exact hclean off (by omega) (by omega)
    refine ⟨hclean', ?_⟩
    have := wrapCollect_clean cfg s m k _ g GROUP_SIZE 0
      (fun j h1 h2 => hclean j h1 h2)
    rw [this] at hcs
    cases hcs
    rfl

theorem groupCollect_clean (hh g : Nat)
    (hclean : ∀ off, off < GROUP_SIZE → ¬matchesKey s m k (probePos cfg hh g off)) :
    groupCollect cfg s m k hh g =
      .cands (candList cfg s g (group_base cfg hh g) 0 GROUP_SIZE) := by
  simp only [groupCollect]
  split
  · rename_i hc
    unfold simdCollect
    have hnone : matchScan cfg s m k (group_base cfg hh g) 0 GROUP_SIZE = none := by
      rw [matchScan_eq_none_iff]
      intro j h1 h2 hmk
      exact hclean j (by omega) (by rw [probePos_contig cfg hh g j hc (by omega)]; exact hmk)
    rw [hnone]
    rw [emptyOffs_map_eq_candList cfg s _ _ GROUP_SIZE 0 (by omega) hc]
  · rename_i hc
    exact wrapCollect_clean cfg s m k _ g GROUP_SIZE 0
      (fun j h1 h2 => by
        have := hclean j (by omega)
        rw [probePos_eq] at this
        exact this)

theorem mem_windowCands (hh : Nat) :
    ∀ gs c, c ∈ windowCands cfg s hh gs ↔
      ∃ g ∈ gs, c ∈ candList cfg s g (group_base cfg hh g) 0 GROUP_SIZE := by
  intro gs
  induction gs with
  | nil =>
    intro c
    simp [windowCands]
  | cons g gs ih =>
    intro c
    rw [windowCands]
    simp only [List.mem_append, ih, List.mem_cons]
    constructor
    · rintro (hc | ⟨g', hg', hc⟩)
      · exact ⟨g, Or.inl rfl, hc⟩
      · exact ⟨g', Or.inr hg', hc⟩
    · rintro ⟨g', rfl | hg', hc⟩
      · exact Or.inl hc
      · exact Or.inr ⟨g', hg', hc⟩

theorem windowLoop_update (hh : Nat) :
    ∀ gs acc i, windowLoop cfg s m k hh acc gs = .update i →
      ∃ g ∈ gs, ∃ off, off < GROUP_SIZE ∧ i = probePos cfg hh g off ∧
        matchesKey s m k i := by
  intro gs
  induction gs with
  | nil =>
    intro acc i hup
    exact WinRes.noConfusion hup
  | cons g gs ih =>
    intro acc i hup
    rw [windowLoop] at hup
    split at hup
    · split at hup
      · rename_i j heq
        obtain ⟨off, h1, h2, h3⟩ := groupCollect_update cfg s m k hh g j heq
        cases hup
        exact ⟨g, List.mem_cons_self g gs, off, h1, h2, h3⟩
      · rename_i cs heq
        obtain ⟨g', hg', hrest⟩ := ih _ i hup
        exact ⟨g', List.mem_cons_of_mem g hg', hrest⟩
    · exact WinRes.noConfusion hup

theorem windowLoop_cands (hm : m ≠ 0) (hh : Nat) :
    ∀ gs acc res, acc.length + GROUP_SIZE * gs.length ≤ 128 →
      windowLoop cfg s m k hh acc gs = .cands res →
      (∀ g ∈ gs, ∀ off, off < GROUP_SIZE → ¬matchesKey s m k (probePos cfg hh g off)) ∧
      res = acc ++ windowCands cfg s hh gs := by
  intro gs
  induction gs with
  | nil =>
    intro acc res _ hres
    cases hres
    refine ⟨by simp, ?_⟩
    rw [windowCands, List.append_nil]
  | cons g gs ih =>
    intro acc res hlen hres
    rw [windowLoop] at hres
    have hguard : acc.length < 128 := by
      rw [List.length_cons] at hlen
      simp only [GROUP_SIZE] at hlen
      omega
    rw [if_pos hguard] at hres
    split at hres
    · exact WinRes.noConfusion hres
    · rename_i cs heq
      obtain ⟨hclean_g, hcs⟩ := groupCollect_cands cfg s m k hm hh g cs heq
      have hcslen : cs.length ≤ GROUP_SIZE := groupCollect_cands_length cfg s m k hh g cs heq
      have hlen' : (acc ++ cs).length + GROUP_SIZE * gs.length ≤ 128 := by
        rw [List.length_append]
        rw [List.length_cons] at hlen
        simp only [GROUP_SIZE] at hlen hcslen ⊢
        omega
      obtain ⟨hcleanrest, hres'⟩ := ih (acc ++ cs) res hlen' hres
      constructor
      · intro g' hg' off hoff
        rcases List.mem_cons.mp hg' with rfl | hmem
        · exact hclean_g off hoff
        · exact hcleanrest g' hmem off hoff
      · rw [hres', windowCands, ← hcs, List.append_assoc]

theorem windowLoop_clean (hh : Nat) :
    ∀ gs acc, acc.length + GROUP_SIZE * gs.length ≤ 128 →
      (∀ g ∈ gs, ∀ off, off < GROUP_SIZE → ¬matchesKey s m k (probePos cfg hh g off)) →
      windowLoop cfg s m k hh acc gs = .cands (acc ++ windowCands cfg s hh gs) := by
  intro gs
  induction gs with
  | nil =>
    intro acc _ _
    rw [windowLoop, windowCands, List.append_nil]
  | cons g gs ih =>
    intro acc hlen hclean
    have hguard : acc.length < 128 := by
      rw [List.length_cons] at hlen
      simp only [GROUP_SIZE] at hlen
      omega
    have hlen' : (acc ++ candList cfg s g (group_base cfg hh g) 0 GROUP_SIZE).length +
        GROUP_SIZE * gs.length ≤ 128 := by
      rw [List.length_append]
      rw [List.length_cons] at hlen
      have h16 := candList_length_le cfg s (group_base cfg hh g) g GROUP_SIZE 0
      simp only [GROUP_SIZE] at hlen h16 ⊢
      omega
    calc windowLoop cfg s m k hh acc (g :: gs)
        = windowLoop cfg s m k hh
            (acc ++ candList cfg s g (group_base cfg hh g) 0 GROUP_SIZE) gs := by
          rw [windowLoop, if_pos hguard,
            groupCollect_clean cfg s m k hh g (hclean g (List.mem_cons_self g gs))]
      _ = .cands (acc ++ windowCands cfg s hh (g :: gs)) := by
          rw [ih _ hlen' (fun g' hg' => hclean g' (List.mem_cons_of_mem g hg'))]
          rw [windowCands, List.append_assoc]

theorem windowLoop_eq_NG (hh : Nat) :
    ∀ gs acc, acc.length + GROUP_SIZE * gs.length ≤ 128 →
      windowLoop cfg s m k hh acc gs = windowLoopNG cfg s m k hh acc gs := by
  intro gs
  induction gs with
  | nil =>
    intro acc _
    rw [windowLoop, windowLoopNG]
  | cons g gs ih =>
    intro acc hlen
    rw [windowLoop, windowLoopNG]
    have hguard : acc.length < 128 := by
      rw [List.length_cons] at hlen
      simp only [GROUP_SIZE] at hlen
      omega
    rw [if_pos hguard]
    split
    · rfl
    · rename_i cs heq
      have hcslen : cs.length ≤ GROUP_SIZE := groupCollect_cands_length cfg s m k hh g cs heq
      refine ih _ ?_
      rw [List.length_append]
      rw [List.length_cons] at hlen
      simp only [GROUP_SIZE] at hlen hcslen ⊢
      omega

theorem windowLoopNG_cands_length (hh : Nat) :
    ∀ gs acc res, windowLoopNG cfg s m k hh acc gs = .cands res →
      res.length ≤ acc.length + GROUP_SIZE * gs.length := by
  intro gs
  induction gs with
  | nil =>
    intro acc res hres
    cases hres
    simp
  | cons g gs ih =>
    intro acc res hres
    rw [windowLoopNG] at hres
    split at hres
    · exact WinRes.noConfusion hres
    · rename_i cs heq
      have hcslen : cs.length ≤ GROUP_SIZE := groupCollect_cands_length cfg s m k hh g cs heq
      have := ih _ _ hres
      rw [List.length_append] at this
      rw [List.length_cons]
      simp only [GROUP_SIZE] at this hcslen ⊢
      omega

end Window

/-! ### Best-candidate selection -/

theorem bestCand_spec :
    ∀ cs c, bestCand c cs ∈ c :: cs ∧
      ∀ d ∈ c :: cs,
        ¬lexLt (d.g, d.slot_offset) ((bestCand c cs).g, (bestCand c cs).slot_offset) := by
  intro cs
  induction cs with
  | nil =>
    intro c
    constructor
    · exact List.mem_singleton.mpr rfl
    · intro d hd
      rw [List.mem_singleton] at hd
      subst hd
      rw [bestCand]
      exact not_lexLt_self _
  | cons e es ih =>
    intro c
    rw [bestCand]
    by_cases hc : e.g < c.g ∨ (e.g = c.g ∧ e.slot_offset < c.slot_offset)
    · rw [if_pos hc]
      obtain ⟨hmem, hmin⟩ := ih e
      have hec : lexLt (e.g, e.slot_offset) (c.g, c.slot_offset) := hc
      constructor
      · exact List.mem_cons_of_mem c hmem
      · intro d hd
        rcases List.mem_cons.mp hd with rfl | hd'
        · intro hlt
          exact hmin e (List.mem_cons_self e es) (lexLt_trans hec hlt)
        · exact hmin d hd'
    · rw [if_neg hc]
      obtain ⟨hmem, hmin⟩ := ih c
      have hce : ¬lexLt (e.g, e.slot_offset) (c.g, c.slot_offset) := hc
      constructor
      · rcases List.mem_cons.mp hmem with heq | hmem'
        · rw [heq]
          exact List.mem_cons_self c (e :: es)
        · exact List.mem_cons_of_mem c (List.mem_cons_of_mem e hmem')
      · intro d hd
        rcases List.mem_cons.mp hd with rfl | hd'
        · exact hmin d (List.mem_cons_self d es)
        · rcases List.mem_cons.mp hd' with rfl | hd''
          · intro hlt
            exact hmin c (List.mem_cons_self c es)
              (lexLt_of_not_lexLt_of_lexLt hce hlt)
          · exact hmin d (List.mem_cons_of_mem c hd'')

/-! ### The fallback loop and the greedy first group -/

section Fallback

variable (cfg : Config K) (s : TState K V) (m : Nat) (k : K)

theorem fallbackLoop_update (hh : Nat) :
    ∀ gs i, fallbackLoop cfg s m k hh gs = .update i →
      ∃ g ∈ gs, ∃ off, off < GROUP_SIZE ∧ i = probePos cfg hh g off ∧
        matchesKey s m k i := by
  intro gs
  induction gs with
  | nil =>
    intro i hup
    exact FBRes.noConfusion hup
  | cons g gs ih =>
    intro i hup
    rw [fallbackLoop] at hup
    split at hup
    · exact FBRes.noConfusion hup
    · rename_i j heq
      obtain ⟨j', h1, h2, h3, h4⟩ := scalarProbe_eq_inr cfg s m k _ GROUP_SIZE 0 j heq
      cases hup
      exact ⟨g, List.mem_cons_self g gs, j', by omega, by rw [probePos_eq, h3], h4⟩
    · rename_i heq
      obtain ⟨g', hg', hrest⟩ := ih i hup
      exact ⟨g', List.mem_cons_of_mem g hg', hrest⟩

theorem fallbackLoop_fail (hh : Nat) :
    ∀ gs, fallbackLoop cfg s m k hh gs = .fail ↔
      ∀ g ∈ gs, scalarProbe cfg s m k (group_base cfg hh g) 0 GROUP_SIZE = none := by
  intro gs
  induction gs with
  | nil =>
    simp [fallbackLoop]
  | cons g gs ih =>
    rw [fallbackLoop]
    constructor
    · intro hfail g' hg'
      rcases List.mem_cons.mp hg' with rfl | hmem
      · split at hfail
        · exact FBRes.noConfusion hfail
        · exact FBRes.noConfusion hfail
        · assumption
      · split at hfail
        · exact FBRes.noConfusion hfail
        · exact FBRes.noConfusion hfail
        · exact (ih.mp hfail) g' hmem
    · intro hall
      rw [hall g (List.mem_cons_self g gs)]
      exact ih.mpr fun g' hg' => hall g' (List.mem_cons_of_mem g hg')

theorem fallbackLoop_place (hh : Nat) :
    ∀ n a i g, fallbackLoop cfg s m k hh (List.range' a n) = .place i g →
      a ≤ g ∧ g < a + n ∧
      (∀ g', a ≤ g' → g' < g →
        scalarProbe cfg s m k (group_base cfg hh g') 0 GROUP_SIZE = none) ∧
      scalarProbe cfg s m k (group_base cfg hh g) 0 GROUP_SIZE = some (Sum.inl i) := by
  intro n
  induction n with
  | zero =>
    intro a i g hp
    exact FBRes.noConfusion hp
  | succ n ih =>
    intro a i g hp
    rw [List.range'_succ, fallbackLoop] at hp
    split at hp
    · rename_i j heq
      cases hp
      exact ⟨le_rfl, by omega, fun g' h1 h2 => by omega, heq⟩
    · exact FBRes.noConfusion hp
    · rename_i heq
      obtain ⟨h1, h2, h3, h4⟩ := ih (a + 1) i g hp
      refine ⟨by omega, by omega, ?_, h4⟩
      intro g' hg1 hg2
      rcases Nat.eq_or_lt_of_le hg1 with rfl | hlt
      · exact heq
      · exact h3 g' hlt hg2

theorem group0_update (hh i : Nat) :
    group0 cfg s m k hh = .update i →
      ∃ off, off < GROUP_SIZE ∧ i = probePos cfg hh 0 off ∧ matchesKey s m k i := by
  intro hup
  simp only [group0] at hup
  split at hup
  · rename_i hc
    split at hup
    · rename_i j heq
      obtain ⟨j', h1, h2, h3, h4, h5⟩ := matchScan_eq_some cfg s m k _ GROUP_SIZE 0 _ heq
      cases hup
      refine ⟨j', by omega, ?_, ?_⟩
      · rw [probePos_contig cfg hh 0 j' hc (by omega), h3]
      · rw [h3]
        exact ⟨h4, h5⟩
    · split at hup
      · exact G0Res.noConfusion hup
      · exact G0Res.noConfusion hup
  · split at hup
    · exact G0Res.noConfusion hup
    · rename_i j heq
      obtain ⟨j', h1, h2, h3, h4⟩ := scalarProbe_eq_inr cfg s m k _ GROUP_SIZE 0 j heq
      cases hup
      exact ⟨j', by omega, by rw [probePos_eq, h3], h4⟩
    · exact G0Res.noConfusion hup

theorem group0_place (hh i : Nat) :
    group0 cfg s m k hh = .place i →
      ∃ off, off < GROUP_SIZE ∧ i = probePos cfg hh 0 off ∧ s.metadata i = 0 ∧
        ∀ off', off' < off →
          s.metadata (probePos cfg hh 0 off') ≠ 0 ∧
          ¬matchesKey s m k (probePos cfg hh 0 off') := by
  intro hpl
  simp only [group0] at hpl
  split at hpl
  · rename_i hc
    split at hpl
    · exact G0Res.noConfusion hpl
    · rename_i hms
      split at hpl
      · rename_i j heq
        obtain ⟨j', h1, h2, h3, h4, h5⟩ := firstEmpty_eq_some s _ GROUP_SIZE 0 _ heq
        cases hpl
        refine ⟨j', by omega, ?_, by rw [h3]; exact h4, ?_⟩
        · rw [probePos_contig cfg hh 0 j' hc (by omega), h3]
        · intro off' hoff'
          rw [probePos_contig cfg hh 0 off' hc (by omega)]
          constructor
          · exact h5 off' (by omega) hoff'
          · exact (matchScan_eq_none_iff cfg s m k _ GROUP_SIZE 0).mp hms off'
              (by omega) (by omega)
      · exact G0Res.noConfusion hpl
  · split at hpl
    · rename_i j heq
      obtain ⟨j', h1, h2, h3, h4, h5⟩ := scalarProbe_eq_inl cfg s m k _ GROUP_SIZE 0 _ heq
      cases hpl
      refine ⟨j', by omega, by rw [probePos_eq, h3], h4, ?_⟩
      intro off' hoff'
      rw [probePos_eq]
      exact h5 off' (by omega) hoff'
    · exact G0Res.noConfusion hpl
    · exact G0Res.noConfusion hpl

theorem group0_full_iff (hh : Nat) :
    group0 cfg s m k hh = .full ↔
      ∀ off, off < GROUP_SIZE →
        s.metadata (probePos cfg hh 0 off) ≠ 0 ∧
        ¬matchesKey s m k (probePos cfg hh 0 off) := by
  simp only [group0]
  split
  · rename_i hc
    constructor
    · intro hfull
      split at hfull
      · exact G0Res.noConfusion hfull
      · rename_i hms
        split at hfull
        · exact G0Res.noConfusion hfull
        · rename_i hfe
          intro off hoff
          rw [probePos_contig cfg hh 0 off hc hoff]
          constructor
          · exact (firstEmpty_eq_none_iff s _ GROUP_SIZE 0).mp hfe off (by omega) (by omega)
          · exact (matchScan_eq_none_iff cfg s m k _ GROUP_SIZE 0).mp hms off
              (by omega) (by omega)
    · intro hall
      have hms : matchScan cfg s m k (group_base cfg hh 0) 0 GROUP_SIZE = none := by
        rw [matchScan_eq_none_iff]
        intro j h1 h2 hmk
        exact (hall j (by omega)).2
          (by rw [probePos_contig cfg hh 0 j hc (by omega)]; exact hmk)
      have hfe : firstEmpty s (group_base cfg hh 0) 0 GROUP_SIZE = none := by
        rw [firstEmpty_eq_none_iff]
        intro j h1 h2
        have := (hall j (by omega)).1
        rw [probePos_contig cfg hh 0 j hc (by omega)] at this
        exact this
      rw [hms, hfe]
  · rename_i hc
    constructor
    · intro hfull
      split at hfull
      · exact G0Res.noConfusion hfull
      · exact G0Res.noConfusion hfull
      · rename_i hsp
        intro off hoff
        rw [probePos_eq]
        exact (scalarProbe_eq_none_iff cfg s m k _ GROUP_SIZE 0).mp hsp off
          (by omega) (by omega)
    · intro hall
      have hsp : scalarProbe cfg s m k (group_base cfg hh 0) 0 GROUP_SIZE = none := by
        rw [scalarProbe_eq_none_iff]
        intro j h1 h2
        have := hall j (by omega)
        rw [probePos_eq] at this
        exact this
      rw [hsp]

end Fallback

/-! ### The window width and window emptiness -/

section WindowFacts

variable (cfg : Config K) (s : TState K V) (m : Nat) (k : K)

theorem window_width_le : window_width cfg s ≤ max_groups cfg :=
  min_le_right _ _

theorem window_width_le_8 : window_width cfg s ≤ 8 := by
  refine le_trans (min_le_left _ _) ?_
  split <;> omega

theorem window_width_pos : 1 ≤ window_width cfg s := by
  have := max_groups_pos cfg
  refine lt_min ?_ this
  split <;> omega

theorem windowCands_nil_no_empty (hh : Nat) (gs : List Nat)
    (hnil : windowCands cfg s hh gs = []) :
    ∀ g ∈ gs, ∀ off, off < GROUP_SIZE → s.metadata (probePos cfg hh g off) ≠ 0 := by
  intro g hg off hoff hemp
  have hmem : (⟨g, off, probePos cfg hh g off⟩ : Cand) ∈ windowCands cfg s hh gs := by
    rw [mem_windowCands]
    refine ⟨g, hg, ?_⟩
    rw [mem_candList]
    refine ⟨off, by omega, by omega, ?_, ?_⟩
    · rw [probePos_eq]
    · rw [← probePos_eq]
      exact hemp
  rw [hnil] at hmem
  exact List.not_mem_nil _ hmem

theorem windowCands_eq_nil (hh : Nat) (gs : List Nat)
    (hocc : ∀ g ∈ gs, ∀ off, off < GROUP_SIZE → s.metadata (probePos cfg hh g off) ≠ 0) :
    windowCands cfg s hh gs = [] := by
  induction gs with
  | nil => rfl
  | cons g gs ih =>
    rw [windowCands]
    rw [candList_eq_nil cfg s (group_base cfg hh g) g GROUP_SIZE 0 ?_]
    · rw [List.nil_append]
      exact ih fun g' hg' => hocc g' (List.mem_cons_of_mem g hg')
    · intro j h1 h2
      have := hocc g (List.mem_cons_self g gs) j (by omega)
      rw [probePos_eq] at this
      exact this

end WindowFacts

/-! ### The master case analysis of `insert` -/

/-- Every call of `insert` either fails leaving the state unchanged, or
updates in place the value of a slot holding a fingerprint-and-key match at
some probe position of the key, or places the new entry at an EMPTY probe
position `(g, off)` of the key all of whose strictly earlier probe positions
are occupied by non-matching entries. -/
theorem insert_cases (cfg : Config K) (s : TState K V) (k : K) (v : V) :
    insert cfg s k v = (false, s) ∨
    (∃ i g off, off < GROUP_SIZE ∧ g < max_groups cfg ∧
      i = probePos cfg (hash_with_salt cfg k) g off ∧
      matchesKey s (make_metadata (hash_with_salt cfg k)) k i ∧
      insert cfg s k v = (true, updateAt s i v)) ∨
    (∃ i g off, off < GROUP_SIZE ∧ g < max_groups cfg ∧
      i = probePos cfg (hash_with_salt cfg k) g off ∧
      s.metadata i = 0 ∧
      (∀ g' off', off' < GROUP_SIZE → lexLt (g', off') (g, off) →
        s.metadata (probePos cfg (hash_with_salt cfg k) g' off') ≠ 0 ∧
        ¬matchesKey s (make_metadata (hash_with_salt cfg k)) k
          (probePos cfg (hash_with_salt cfg k) g' off')) ∧
      insert cfg s k v = (true, placeAt s i (make_metadata (hash_with_salt cfg k)) k v g)) := by
  by_cases hgate : cfg.max_inserts ≤ s.size
  · left
    simp only [insert, if_pos hgate]
  · have hTG := max_groups_pos cfg
    cases hg0 : group0 cfg s (make_metadata (hash_with_salt cfg k)) k (hash_with_salt cfg k) with
    | update i =>
      obtain ⟨off, hoff, hpos, hmk⟩ := group0_update cfg s _ k _ i hg0
      refine Or.inr (Or.inl ⟨i, 0, off, hoff, hTG, hpos, hmk, ?_⟩)
      simp only [insert, if_neg hgate]
      rw [hg0]
    | place i =>
      obtain ⟨off, hoff, hpos, hemp, hpre⟩ := group0_place cfg s _ k _ i hg0
      refine Or.inr (Or.inr ⟨i, 0, off, hoff, hTG, hpos, hemp, ?_, ?_⟩)
      · intro g' off' hoff' hlex
        rcases hlex with h | ⟨hg', hlt⟩
        · omega
        · subst hg'
          exact hpre off' hlt
      · simp only [insert, if_neg hgate]
        rw [hg0]
    | full =>
      have hwle : window_width cfg s ≤ max_groups cfg := window_width_le cfg s
      have hw8 : window_width cfg s ≤ 8 := window_width_le_8 cfg s
      have hw1 : 1 ≤ window_width cfg s := window_width_pos cfg s
      have hlenpre : ([] : List Cand).length +
          GROUP_SIZE * (List.range' 1 (window_width cfg s - 1)).length ≤ 128 := by
        rw [List.length_range']
        simp only [GROUP_SIZE, List.length_nil]
        omega
      have hg0full := (group0_full_iff cfg s _ k _).mp hg0
      cases hwr : window_result cfg s (make_metadata (hash_with_salt cfg k)) k
          (hash_with_salt cfg k) with
      | update i =>
        rw [window_result] at hwr
        obtain ⟨g, hg, off, hoff, hpos, hmk⟩ :=
          windowLoop_update cfg s _ k _ _ _ i hwr
        rw [List.mem_range'_1] at hg
        refine Or.inr (Or.inl ⟨i, g, off, hoff, by omega, hpos, hmk, ?_⟩)
        simp only [insert, if_neg hgate]
        rw [hg0, window_result, hwr]
      | cands cs =>
        rw [window_result] at hwr
        obtain ⟨hwclean, hwres⟩ :=
          windowLoop_cands cfg s _ k (make_metadata_ne_zero _) _ _ _ cs hlenpre hwr
        rw [List.nil_append] at hwres
        cases cs with
        | nil =>
          have hwc_nil : windowCands cfg s (hash_with_salt cfg k)
              (List.range' 1 (window_width cfg s - 1)) = [] := hwres.symm
          have hwin_occ := windowCands_nil_no_empty cfg s _ _ hwc_nil
          cases hfb : fallbackLoop cfg s (make_metadata (hash_with_salt cfg k)) k
              (hash_with_salt cfg k)
              (List.range' (window_width cfg s) (max_groups cfg - window_width cfg s)) with
          | fail =>
            left
            simp only [insert, if_neg hgate]
            rw [hg0, window_result, hwr, hfb]
          | update i =>
            obtain ⟨g, hg, off, hoff, hpos, hmk⟩ :=
              fallbackLoop_update cfg s _ k _ _ i hfb
            rw [List.mem_range'_1] at hg
            refine Or.inr (Or.inl ⟨i, g, off, hoff, by omega, hpos, hmk, ?_⟩)
            simp only [insert, if_neg hgate]
            rw [hg0, window_result, hwr, hfb]
          | place i g =>
            obtain ⟨hga, hgb, hnone, hsp⟩ := fallbackLoop_place cfg s _ k _
              (max_groups cfg - window_width cfg s) (window_width cfg s) i g hfb
            obtain ⟨j, hj0, hj16, hieq, hiempty, hjpre⟩ :=
              scalarProbe_eq_inl cfg s _ k _ GROUP_SIZE 0 i hsp
            refine Or.inr (Or.inr ⟨i, g, j, by omega, by omega,
              by rw [probePos_eq, hieq], hiempty, ?_, ?_⟩)
            · intro g' off' hoff' hlex
              by_cases hg'0 : g' = 0
              · subst hg'0
                exact hg0full off' hoff'
              by_cases hg'w : g' < window_width cfg s
              · have hg'mem : g' ∈ List.range' 1 (window_width cfg s - 1) := by
                  rw [List.mem_range'_1]
                  omega
                exact ⟨hwin_occ g' hg'mem off' hoff', hwclean g' hg'mem off' hoff'⟩
              · rcases hlex with hlt | ⟨heqg, hlt⟩
                · have := (scalarProbe_eq_none_iff cfg s _ k _ GROUP_SIZE 0).mp
                    (hnone g' (by omega) hlt) off' (by omega) (by omega)
                  rw [probePos_eq]
                  exact this
                · subst heqg
                  have := hjpre off' (by omega) hlt
                  rw [probePos_eq]
                  exact this
            · simp only [insert, if_neg hgate]
              rw [hg0, window_result, hwr, hfb]
        | cons c cs' =>
          have hbest_mem : bestCand c cs' ∈ c :: cs' := (bestCand_spec cs' c).1
          have hbest_min := (bestCand_spec cs' c).2
          rw [hwres] at hbest_mem
          obtain ⟨g0, hg0mem, hcand⟩ := (mem_windowCands cfg s _ _ _).mp hbest_mem
          obtain ⟨j, hj0, hj16, hceq, hcemp⟩ :=
            (mem_candList cfg s (group_base cfg (hash_with_salt cfg k) g0) g0
              GROUP_SIZE 0 _).mp hcand
          rw [List.mem_range'_1] at hg0mem
          have hBg : (bestCand c cs').g = g0 := by rw [hceq]
          have hBoff : (bestCand c cs').slot_offset = j := by rw [hceq]
          have hBidx : (bestCand c cs').table_idx =
              probePos cfg (hash_with_salt cfg k) g0 j := by
            rw [hceq, probePos_eq]
          refine Or.inr (Or.inr ⟨(bestCand c cs').table_idx, g0, j, by omega,
            by omega, hBidx, ?_, ?_, ?_⟩)
          · rw [hBidx]
            exact hcemp
          · intro g' off' hoff' hlex
            by_cases hg'0 : g' = 0
            · subst hg'0
              exact hg0full off' hoff'
            · have hg'w : g' < window_width cfg s := by
                rcases hlex with hlt | ⟨heqg, hlt⟩ <;> omega
              have hg'mem : g' ∈ List.range' 1 (window_width cfg s - 1) := by
                rw [List.mem_range'_1]
                omega
              refine ⟨?_, hwclean g' hg'mem off' hoff'⟩
              intro hempty
              have hdmem : (⟨g', off', probePos cfg (hash_with_salt cfg k) g' off'⟩ :
                  Cand) ∈ windowCands cfg s (hash_with_salt cfg k)
                    (List.range' 1 (window_width cfg s - 1)) := by
                rw [mem_windowCands]
                refine ⟨g', hg'mem, ?_⟩
                rw [mem_candList]
                refine ⟨off', by omega, by omega, by rw [probePos_eq], ?_⟩
                rw [← probePos_eq]
                exact hempty
              rw [← hwres] at hdmem
              have := hbest_min _ hdmem
              rw [hBg, hBoff] at this
              exact this hlex
          · simp only [insert, if_neg hgate]
            rw [hg0, window_result, hwr, ← hBg]

/-- An `insert` that reports failure leaves the state untouched. -/
theorem insert_false_eq (cfg : Config K) (s : TState K V) (k : K) (v : V)
    (hf : (insert cfg s k v).1 = false) : insert cfg s k v = (false, s) := by
  rcases insert_cases cfg s k v with h | ⟨i, g, off, _, _, _, _, h⟩ |
    ⟨i, g, off, _, _, _, _, _, h⟩
  · exact h
  · rw [h] at hf
    cases hf
  · rw [h] at hf
    cases hf

/-- `insert` fails exactly when the size gate trips or every probe position
of the key within `max_groups` groups is occupied by a non-matching entry. -/
theorem insert_false_iff (cfg : Config K) (s : TState K V) (k : K) (v : V) :
    (insert cfg s k v).1 = false ↔
      cfg.max_inserts ≤ s.size ∨
      ∀ g, g < max_groups cfg → ∀ off, off < GROUP_SIZE →
        s.metadata (probePos cfg (hash_with_salt cfg k) g off) ≠ 0 ∧
        ¬matchesKey s (make_metadata (hash_with_salt cfg k)) k
          (probePos cfg (hash_with_salt cfg k) g off) := by
  constructor
  · intro hf
    by_cases hgate : cfg.max_inserts ≤ s.size
    · exact Or.inl hgate
    right
    have hwle : window_width cfg s ≤ max_groups cfg := window_width_le cfg s
    have hw8 : window_width cfg s ≤ 8 := window_width_le_8 cfg s
    have hw1 : 1 ≤ window_width cfg s := window_width_pos cfg s
    have hlenpre : ([] : List Cand).length +
        GROUP_SIZE * (List.range' 1 (window_width cfg s - 1)).length ≤ 128 := by
      rw [List.length_range']
      simp only [GROUP_SIZE, List.length_nil]
      omega
    cases hg0 : group0 cfg s (make_metadata (hash_with_salt cfg k)) k
        (hash_with_salt cfg k) with
    | update i =>
      exfalso
      have : insert cfg s k v = (true, updateAt s i v) := by
        simp only [insert, if_neg hgate]
        rw [hg0]
      rw [this] at hf
      cases hf
    | place i =>
      exfalso
      have : insert cfg s k v =
          (true, placeAt s i (make_metadata (hash_with_salt cfg k)) k v 0) := by
        simp only [insert, if_neg hgate]
        rw [hg0]
      rw [this] at hf
      cases hf
    | full =>
      have hg0full := (group0_full_iff cfg s _ k _).mp hg0
      cases hwr : window_result cfg s (make_metadata (hash_with_salt cfg k)) k
          (hash_with_salt cfg k) with
      | update i =>
        exfalso
        have : insert cfg s k v = (true, updateAt s i v) := by
          simp only [insert, if_neg hgate]
          rw [hg0, hwr]
        rw [this] at hf
        cases hf
      | cands cs =>
        cases cs with
        | cons c cs' =>
          exfalso
          have : insert cfg s k v = (true, placeAt s (bestCand c cs').table_idx
              (make_metadata (hash_with_salt cfg k)) k v (bestCand c cs').g) := by
            simp only [insert, if_neg hgate]
            rw [hg0, hwr]
          rw [this] at hf
          cases hf
        | nil =>
          rw [window_result] at hwr
          obtain ⟨hwclean, hwres⟩ :=
            windowLoop_cands cfg s _ k (make_metadata_ne_zero _) _ _ _ _ hlenpre hwr
          rw [List.nil_append] at hwres
          have hwin_occ := windowCands_nil_no_empty cfg s _ _ hwres.symm
          cases hfb : fallbackLoop cfg s (make_metadata (hash_with_salt cfg k)) k
              (hash_with_salt cfg k)
              (List.range' (window_width cfg s) (max_groups cfg - window_width cfg s)) with
          | update i =>
            exfalso
            have : insert cfg s k v = (true, updateAt s i v) := by
              simp only [insert, if_neg hgate]
              rw [hg0, window_result, hwr, hfb]
            rw [this] at hf
            cases hf
          | place i g =>
            exfalso
            have : insert cfg s k v =
                (true, placeAt s i (make_metadata (hash_with_salt cfg k)) k v g) := by
              simp only [insert, if_neg hgate]
              rw [hg0, window_result, hwr, hfb]
            rw [this] at hf
            cases hf
          | fail =>
            have hfbfacts := (fallbackLoop_fail cfg s _ k _ _).mp hfb
            intro g hgTG off hoff
            by_cases hzero : g = 0
            · subst hzero
              exact hg0full off hoff
            by_cases hgw : g < window_width cfg s
            · have hgmem : g ∈ List.range' 1 (window_width cfg s - 1) := by
                rw [List.mem_range'_1]
                omega
              exact ⟨hwin_occ g hgmem off hoff, hwclean g hgmem off hoff⟩
            · have hgmem : g ∈ List.range' (window_width cfg s)
                  (max_groups cfg - window_width cfg s) := by
                rw [List.mem_range'_1]
                omega
              have := (scalarProbe_eq_none_iff cfg s _ k _ GROUP_SIZE 0).mp
                (hfbfacts g hgmem) off (by omega) (by omega)
              rw [probePos_eq]
              exact this
  · intro hrhs
    by_cases hgate : cfg.max_inserts ≤ s.size
    · simp only [insert, if_pos hgate]
    rcases hrhs with hgate' | hall
    · exact absurd hgate' hgate
    have hwle : window_width cfg s ≤ max_groups cfg := window_width_le cfg s
    have hw8 : window_width cfg s ≤ 8 := window_width_le_8 cfg s
    have hw1 : 1 ≤ window_width cfg s := window_width_pos cfg s
    have hlenpre : ([] : List Cand).length +
        GROUP_SIZE * (List.range' 1 (window_width cfg s - 1)).length ≤ 128 := by
      rw [List.length_range']
      simp only [GROUP_SIZE, List.length_nil]
      omega
    have hg0 : group0 cfg s (make_metadata (hash_with_salt cfg k)) k
        (hash_with_salt cfg k) = .full :=
      (group0_full_iff cfg s _ k _).mpr fun off hoff =>
        hall 0 (max_groups_pos cfg) off hoff
    have hwclean : ∀ g ∈ List.range' 1 (window_width cfg s - 1), ∀ off,
        off < GROUP_SIZE → ¬matchesKey s (make_metadata (hash_with_salt cfg k)) k
          (probePos cfg (hash_with_salt cfg k) g off) := by
      intro g hg off hoff
      rw [List.mem_range'_1] at hg
      exact (hall g (by omega) off hoff).2
    have hocc : ∀ g ∈ List.range' 1 (window_width cfg s - 1), ∀ off,
        off < GROUP_SIZE →
          s.metadata (probePos cfg (hash_with_salt cfg k) g off) ≠ 0 := by
      intro g hg off hoff
      rw [List.mem_range'_1] at hg
      exact (hall g (by omega) off hoff).1
    have hwr : window_result cfg s (make_metadata (hash_with_salt cfg k)) k
        (hash_with_salt cfg k) = .cands [] := by
      rw [window_result]
      rw [windowLoop_clean cfg s _ k _ _ _ hlenpre hwclean]
      rw [windowCands_eq_nil cfg s _ _ hocc]
      rfl
    have hfb : fallbackLoop cfg s (make_metadata (hash_with_salt cfg k)) k
        (hash_with_salt cfg k)
        (List.range' (window_width cfg s) (max_groups cfg - window_width cfg s)) =
          .fail := by
      rw [fallbackLoop_fail]
      intro g hg
      rw [List.mem_range'_1] at hg
      rw [scalarProbe_eq_none_iff]
      intro j h1 h2
      have := hall g (by omega) j (by omega)
      rw [probePos_eq] at this
      exact this
    simp only [insert, if_neg hgate]
    rw [hg0, hwr, hfb]

/-! ### Soundness of `find` on invariant states -/

section FindSound

variable (cfg : Config K) (s : TState K V) (m : Nat) (k : K) (w : V)

theorem findSimdGroup_occ (b : Nat) (hc : b + GROUP_SIZE ≤ cfg.capacity)
    (hocc : ∀ off, off < GROUP_SIZE → s.metadata (b + off) ≠ 0)
    (HW : ∀ j, j < cfg.capacity → matchesKey s m k j → s.valAt j = w) :
    findSimdGroup cfg s m k b = .cont ∨ findSimdGroup cfg s m k b = .found w := by
  cases hms : matchScan cfg s m k b 0 GROUP_SIZE with
  | some i =>
    right
    have heq : findSimdGroup cfg s m k b = .found (s.valAt i) := by
      unfold findSimdGroup
      rw [hms]
    obtain ⟨j, h1, h2, h3, h4, h5⟩ := matchScan_eq_some cfg s m k b GROUP_SIZE 0 i hms
    rw [heq, HW i (by omega) (by rw [h3]; exact ⟨h4, h5⟩)]
  | none =>
    left
    unfold findSimdGroup
    rw [hms, (firstEmpty_eq_none_iff s b GROUP_SIZE 0).mpr
      (fun j h1 h2 => hocc j (by omega))]
    rfl

theorem findSimdGroup_match (b : Nat) (hc : b + GROUP_SIZE ≤ cfg.capacity)
    (hex : ∃ off, off < GROUP_SIZE ∧ matchesKey s m k (b + off))
    (HW : ∀ j, j < cfg.capacity → matchesKey s m k j → s.valAt j = w) :
    findSimdGroup cfg s m k b = .found w := by
  obtain ⟨off, hoff, hmk⟩ := hex
  obtain ⟨i, hi⟩ := matchScan_of_mem cfg s m k b GROUP_SIZE 0
    ⟨off, by omega, by omega, hmk.1, hmk.2⟩
  have heq : findSimdGroup cfg s m k b = .found (s.valAt i) := by
    unfold findSimdGroup
    rw [hi]
  obtain ⟨j, h1, h2, h3, h4, h5⟩ := matchScan_eq_some cfg s m k b GROUP_SIZE 0 i hi
  rw [heq, HW i (by omega) (by rw [h3]; exact ⟨h4, h5⟩)]

theorem findWrapGroup_occ (b : Nat)
    (HW : ∀ j, j < cfg.capacity → matchesKey s m k j → s.valAt j = w) :
    ∀ n off, (∀ j, off ≤ j → j < off + n → s.metadata ((b + j) % cfg.capacity) ≠ 0) →
      findWrapGroup cfg s m k b off n = .cont ∨
      findWrapGroup cfg s m k b off n = .found w := by
  intro n
  induction n with
  | zero =>
    intro off _
    left
    rfl
  | succ n ih =>
    intro off hocc
    rw [findWrapGroup]
    split
    · rename_i hemp
      exact absurd hemp (hocc off le_rfl (by omega))
    · split
      · rename_i hmk
        right
        rw [HW _ (Nat.mod_lt _ cfg.cap_pos) hmk]
      · exact ih (off + 1) fun j h1 h2 => hocc j (by omega) (by omega)

theorem findWrapGroup_match (b : Nat) (hm : m ≠ 0)
    (HW : ∀ j, j < cfg.capacity → matchesKey s m k j → s.valAt j = w) :
    ∀ n off, (∃ j, off ≤ j ∧ j < off + n ∧ matchesKey s m k ((b + j) % cfg.capacity) ∧
      ∀ j', off ≤ j' → j' < j → s.metadata ((b + j') % cfg.capacity) ≠ 0) →
      findWrapGroup cfg s m k b off n = .found w := by
  intro n
  induction n with
  | zero =>
    rintro off ⟨j, h1, h2, -⟩
    omega
  | succ n ih =>
    rintro off ⟨j, h1, h2, hmk, hpre⟩
    rw [findWrapGroup]
    split
    · rename_i hemp
      exfalso
      rcases Nat.eq_or_lt_of_le h1 with rfl | hlt
      · exact hm (hmk.1.symm.trans hemp)
      · exact hpre off le_rfl hlt hemp
    · split
      · rename_i hmk'
        rw [HW _ (Nat.mod_lt _ cfg.cap_pos) hmk']
      · rename_i hne hnmk
        rcases Nat.eq_or_lt_of_le h1 with rfl | hlt
        · exact absurd hmk hnmk
        · exact ih (off + 1) ⟨j, hlt, by omega, hmk,
            fun j' h1' h2' => hpre j' (by omega) h2'⟩

theorem findGroup_occ (hh g : Nat)
    (hocc : ∀ off, off < GROUP_SIZE → s.metadata (probePos cfg hh g off) ≠ 0)
    (HW : ∀ j, j < cfg.capacity → matchesKey s m k j → s.valAt j = w) :
    findGroup cfg s m k hh g = .cont ∨ findGroup cfg s m k hh g = .found w := by
  simp only [findGroup]
  split
  · rename_i hc
    refine findSimdGroup_occ cfg s m k w _ hc ?_ HW
    intro off hoff
    have := hocc off hoff
    rw [probePos_contig cfg hh g off hc hoff] at this
    exact this
  · refine findWrapGroup_occ cfg s m k w _ HW GROUP_SIZE 0 ?_
    intro j h1 h2
    have := hocc j (by omega)
    rw [probePos_eq] at this
    exact this

theorem findGroup_match (hh g : Nat) (hm : m ≠ 0)
    (hex : ∃ off, off < GROUP_SIZE ∧ matchesKey s m k (probePos cfg hh g off) ∧
      ∀ off', off' < off → s.metadata (probePos cfg hh g off') ≠ 0)
    (HW : ∀ j, j < cfg.capacity → matchesKey s m k j → s.valAt j = w) :
    findGroup cfg s m k hh g = .found w := by
  simp only [findGroup]
  obtain ⟨off, hoff, hmk, hpre⟩ := hex
  split
  · rename_i hc
    refine findSimdGroup_match cfg s m k w _ hc ⟨off, hoff, ?_⟩ HW
    rw [← probePos_contig cfg hh g off hc hoff]
    exact hmk
  · refine findWrapGroup_match cfg s m k w _ hm HW GROUP_SIZE 0
      ⟨off, by omega, by omega, ?_, ?_⟩
    · rw [← probePos_eq]
      exact hmk
    · intro j' h1' h2'
      have := hpre j' h2'
      rw [probePos_eq] at this
      exact this

theorem findLoop_range (hh g : Nat)
    (hgfound : findGroup cfg s m k hh g = .found w) :
    ∀ n a, a ≤ g → g < a + n →
      (∀ g', a ≤ g' → g' < g →
        findGroup cfg s m k hh g' = .cont ∨ findGroup cfg s m k hh g' = .found w) →
      findLoop cfg s m k hh (List.range' a n) = some w := by
  intro n
  induction n with
  | zero =>
    intro a h1 h2 _
    omega
  | succ n ih =>
    intro a h1 h2 hpre
    rw [List.range'_succ, findLoop]
    rcases Nat.eq_or_lt_of_le h1 with rfl | hlt
    · rw [hgfound]
    · rcases hpre a le_rfl hlt with hcont | hfound
      · rw [hcont]
        exact ih (a + 1) hlt (by omega) fun g' h1' h2' => hpre g' (by omega) h2'
      · rw [hfound]

/-- On an invariant state, `find` locates every stored key and returns its
stored value. -/
theorem find_of_stored (hinv : Inv cfg s) (i : Nat) (hi : i < cfg.capacity)
    (hocc : s.metadata i ≠ 0) (hkey : s.keyAt i = k) :
    find cfg s k = some (s.valAt i) := by
  have hwf := hinv.wf i hi hocc
  rw [hkey] at hwf
  have HW : ∀ j, j < cfg.capacity →
      matchesKey s (make_metadata (hash_with_salt cfg k)) k j → s.valAt j = s.valAt i := by
    intro j hj hmk
    have hjocc : s.metadata j ≠ 0 := by
      rw [hmk.1]
      exact make_metadata_ne_zero _
    have := hinv.nodup j hj i hi hjocc hocc (hmk.2.trans hkey.symm)
    rw [this]
  obtain ⟨g, off, hgmgu, hgTG, hoff, hpos, hpre⟩ := hinv.located i hi hocc
  rw [hkey] at hpos hpre
  have hfound : findGroup cfg s (make_metadata (hash_with_salt cfg k)) k
      (hash_with_salt cfg k) g = .found (s.valAt i) := by
    refine findGroup_match cfg s _ k _ _ g (make_metadata_ne_zero _)
      ⟨off, hoff, ?_, ?_⟩ HW
    · rw [hpos]
      exact ⟨hwf, hkey⟩
    · intro off' hoff'
      exact hpre g off' (by omega) (Or.inr ⟨rfl, hoff'⟩)
  have hprev : ∀ g', 0 ≤ g' → g' < g →
      findGroup cfg s (make_metadata (hash_with_salt cfg k)) k
        (hash_with_salt cfg k) g' = .cont ∨
      findGroup cfg s (make_metadata (hash_with_salt cfg k)) k
        (hash_with_salt cfg k) g' = .found (s.valAt i) := by
    intro g' _ hg'
    refine findGroup_occ cfg s _ k _ _ g' ?_ HW
    intro off' hoff'
    exact hpre g' off' hoff' (Or.inl hg')
  simp only [find]
  exact findLoop_range cfg s _ k _ _ g hfound (s.max_group_used + 1) 0
    (by omega) (by omega) hprev

end FindSound

/-! ### Counting occupied slots -/

theorem countP_flip (i : Nat) (f f' : Nat → Nat) (h0 : f i = 0) (h1 : f' i ≠ 0) :
    ∀ l : List Nat, l.Nodup → i ∈ l → (∀ j ∈ l, j ≠ i → f' j = f j) →
      (l.countP fun j => decide (f' j ≠ 0)) =
        (l.countP fun j => decide (f j ≠ 0)) + 1 := by
  intro l
  induction l with
  | nil =>
    intro _ hmem
    cases hmem
  | cons a l ih =>
    intro hnd hmem hagree
    rw [List.nodup_cons] at hnd
    rw [List.countP_cons, List.countP_cons]
    rcases List.mem_cons.mp hmem with rfl | hmem'
    · have hrest : (l.countP fun j => decide (f' j ≠ 0)) =
          l.countP fun j => decide (f j ≠ 0) := by
        refine List.countP_congr ?_
        intro j hj
        have hne : j ≠ i := fun hji => hnd.1 (hji ▸ hj)
        rw [hagree j (List.mem_cons_of_mem i hj) hne]
      rw [hrest]
      rw [if_pos (by simpa using h1), if_neg (by simpa using h0)]
    · have hne : a ≠ i := fun hai => hnd.1 (hai ▸ hmem')
      rw [hagree a (List.mem_cons_self a l) hne]
      rw [ih hnd.2 hmem' fun j hj => hagree j (List.mem_cons_of_mem a hj)]
      omega

theorem occCount_placeAt (cfg : Config K) (s : TState K V) (i m' : Nat) (k' : K)
    (v' : V) (g : Nat) (hi : i < cfg.capacity) (hemp : s.metadata i = 0)
    (hm : m' ≠ 0) :
    occCount cfg (placeAt s i m' k' v' g) = occCount cfg s + 1 := by
  unfold occCount
  refine countP_flip i s.metadata (placeAt s i m' k' v' g).metadata hemp ?_
    (List.range cfg.capacity) (List.nodup_range _) (List.mem_range.mpr hi) ?_
  · simp [placeAt_metadata]
    exact hm
  · intro j _ hne
    simp [placeAt_metadata, hne]

/-! ### The invariant: establishment and preservation -/

theorem inv_init (cfg : Config K) (d : K) (v0 : V) :
    Inv cfg (initState d v0 : TState K V) := by
  constructor
  · intro i _ hne
    exact absurd rfl hne
  · intro i _ j _ hne
    exact absurd rfl hne
  · intro i _ hne
    exact absurd rfl hne
  · simp [occCount, initState]
  · exact max_groups_pos cfg

theorem inv_insert (cfg : Config K) (s : TState K V) (k : K) (v : V)
    (hinv : Inv cfg s) : Inv cfg (insert cfg s k v).2 := by
  rcases insert_cases cfg s k v with heq |
    ⟨i, g, off, hoff, hgTG, hpos, hmk, heq⟩ |
    ⟨i, g, off, hoff, hgTG, hpos, hemp, hpre, heq⟩
  · rw [heq]
    exact hinv
  · rw [heq]
    exact ⟨hinv.wf, hinv.nodup, hinv.located, hinv.sz, hinv.mgu_lt⟩
  · rw [heq]
    have hiCp : i < cfg.capacity := by
      rw [hpos]
      exact probePos_lt cfg _ g off
    have hmne : make_metadata (hash_with_salt cfg k) ≠ 0 := make_metadata_ne_zero _
    -- any previously stored copy of the key is impossible
    have hnostored : ∀ j, j < cfg.capacity → s.metadata j ≠ 0 → s.keyAt j ≠ k := by
      intro j hj hjocc hjkey
      obtain ⟨g2, off2, hg2mgu, hg2TG, hoff2, hpos2, hpre2⟩ := hinv.located j hj hjocc
      rw [hjkey] at hpos2 hpre2
      have hjmk : matchesKey s (make_metadata (hash_with_salt cfg k)) k j := by
        refine ⟨?_, hjkey⟩
        have := hinv.wf j hj hjocc
        rw [hjkey] at this
        exact this
      rcases lexLt_trichotomy (g2, off2) (g, off) with hlt | heq2 | hgt
      · exact (hpre g2 off2 hoff2 hlt).2 (by rw [hpos2]; exact hjmk)
      · have : probePos cfg (hash_with_salt cfg k) g2 off2 = i := by
          rw [show g2 = g from congrArg Prod.fst heq2,
            show off2 = off from congrArg Prod.snd heq2, ← hpos]
        rw [this] at hpos2
        exact hjocc (hpos2 ▸ hemp)
      · have := hpre2 g off hoff hgt
        rw [← hpos] at this
        exact this hemp
    constructor
    · -- wf
      intro j hj hne
      by_cases hji : j = i
      · subst hji
        simp [placeAt_metadata, placeAt_keyAt]
      · simp only [placeAt_metadata, placeAt_keyAt, if_neg hji] at hne ⊢
        exact hinv.wf j hj hne
    · -- nodup
      intro j1 hj1 j2 hj2 hne1 hne2 hkeq
      simp only [placeAt_metadata, placeAt_keyAt] at hne1 hne2 hkeq
      by_cases h1i : j1 = i <;> by_cases h2i : j2 = i
      · rw [h1i, h2i]
      · rw [if_pos h1i] at hkeq
        rw [if_neg h2i] at hkeq hne2
        exact absurd hkeq.symm (hnostored j2 hj2 hne2)
      · rw [if_pos h2i] at hkeq
        rw [if_neg h1i] at hkeq hne1
        exact absurd hkeq (hnostored j1 hj1 hne1)
      · rw [if_neg h1i] at hkeq hne1
        rw [if_neg h2i] at hkeq hne2
        exact hinv.nodup j1 hj1 j2 hj2 hne1 hne2 hkeq
    · -- located
      intro j hj hne
      by_cases hji : j = i
      · subst hji
        have hkA : (placeAt s j (make_metadata (hash_with_salt cfg k)) k v g).keyAt j = k := by
          simp [placeAt_keyAt]
        refine ⟨g, off, ?_, hgTG, hoff, ?_, ?_⟩
        · simp only [placeAt_mgu]
          split <;> omega
        · rw [hkA]
          exact hpos.symm
        · intro g' off' hoff' hlex
          rw [hkA]
          simp only [placeAt_metadata]
          split
          · exact hmne
          · exact (hpre g' off' hoff' hlex).1
      · simp only [placeAt_metadata, if_neg hji] at hne
        have hkA : (placeAt s i (make_metadata (hash_with_salt cfg k)) k v g).keyAt j
            = s.keyAt j := by
          simp [placeAt_keyAt, hji]
        obtain ⟨g2, off2, hg2mgu, hg2TG, hoff2, hpos2, hpre2⟩ := hinv.located j hj hne
        refine ⟨g2, off2, ?_, hg2TG, hoff2, ?_, ?_⟩
        · simp only [placeAt_mgu]
          split <;> omega
        · rw [hkA]
          exact hpos2
        · intro g' off' hoff' hlex
          rw [hkA]
          simp only [placeAt_metadata]
          split
          · exact hmne
          · exact hpre2 g' off' hoff' hlex
    · -- sz
      rw [placeAt_size, occCount_placeAt cfg s i _ k v g hiCp hemp hmne, hinv.sz]
    · -- mgu_lt
      simp only [placeAt_mgu]
      have := hinv.mgu_lt
      split <;> omega

theorem reachable_inv (cfg : Config K) (d : K) (v0 : V) (s : TState K V)
    (hr : Reachable cfg d v0 s) : Inv cfg s := by
  induction hr with
  | init => exact inv_init cfg d v0
  | step s k v _ ih => exact inv_insert cfg s k v ih

/-! ### Arithmetic facts about the constructor -/

theorem log2aux_spec :
    ∀ fuel n, 0 < n → n ≤ fuel →
      2 ^ log2aux fuel n ≤ n ∧ n < 2 ^ (log2aux fuel n + 1) := by
  intro fuel
  induction fuel with
  | zero =>
    intro n h1 h2
    omega
  | succ fuel ih =>
    intro n h1 h2
    rw [log2aux]
    split
    · rename_i hn2
      constructor
      · simpa using h1
      · simpa using hn2
    · rename_i hn2
      have hrec := ih (n / 2) (by omega) (by omega)
      constructor
      · rw [pow_succ]
        have := hrec.1
        omega
      · rw [pow_succ]
        have := hrec.2
        omega

theorem log2floor_spec (n : Nat) (hn : 0 < n) :
    2 ^ log2floor n ≤ n ∧ n < 2 ^ (log2floor n + 1) :=
  log2aux_spec n n hn le_rfl

/-! ### Occupied and EMPTY slots partition the table -/

theorem countP_ne_add_eq (f : Nat → Nat) :
    ∀ l : List Nat,
      (l.countP fun j => decide (f j ≠ 0)) + (l.countP fun j => decide (f j = 0)) =
        l.length := by
  intro l
  induction l with
  | nil => rfl
  | cons a l ih =>
    rw [List.countP_cons, List.countP_cons, List.length_cons]
    by_cases h : f a = 0
    · rw [if_neg (by simp [h]), if_pos (by simp [h])]
      omega
    · rw [if_pos (by simp [h]), if_neg (by simp [h])]
      omega

theorem occ_add_empty (cfg : Config K) (s : TState K V) :
    occCount cfg s + emptyCount cfg s = cfg.capacity := by
  unfold occCount emptyCount
  rw [countP_ne_add_eq]
  exact List.length_range _

/-! ### Reachability of the concrete filled tables -/

theorem fillTable_reachable (cfg : Config Nat) :
    ∀ n, Reachable cfg 0 0 (fillTable cfg n)
  | 0 => Reachable.init
  | n + 1 => Reachable.step _ _ _ (fillTable_reachable cfg n)

/-! ### The scalar wrapping lookup versus the SIMD scan semantics -/

section SpecSIMD

variable (cfg : Config K) (s : TState K V) (m : Nat) (k : K) (b : Nat)

theorem specMatchScanWrap_eq_some :
    ∀ n off i, findGroupSpecSIMD.matchScanWrap cfg s m k b off n = some i →
      ∃ j, off ≤ j ∧ j < off + n ∧ i = (b + j) % cfg.capacity ∧
        matchesKey s m k i := by
  intro n
  induction n with
  | zero =>
    intro off i hcontra
    cases hcontra
  | succ n ih =>
    intro off i hsome
    rw [findGroupSpecSIMD.matchScanWrap] at hsome
    split at hsome
    · rename_i hcond
      cases hsome
      exact ⟨off, le_rfl, by omega, rfl, hcond⟩
    · obtain ⟨j, h1, h2, h3⟩ := ih (off + 1) i hsome
      exact ⟨j, by omega, by omega, h3⟩

/-- The scalar wrapping walk agrees with the SIMD mask semantics applied to
the same slots as long as no EMPTY slot strictly precedes a
fingerprint-and-key match. -/
theorem C5core (hm : m ≠ 0) :
    ∀ n off,
      (∀ o1 o2, off ≤ o1 → o1 < o2 → o2 < off + n →
        s.metadata ((b + o1) % cfg.capacity) = 0 →
        ¬matchesKey s m k ((b + o2) % cfg.capacity)) →
      findWrapGroup cfg s m k b off n =
        (match findGroupSpecSIMD.matchScanWrap cfg s m k b off n with
         | some i => ScanRes.found (s.valAt i)
         | none =>
            if (findGroupSpecSIMD.firstEmptyWrap cfg s b off n).isSome
            then ScanRes.absent else ScanRes.cont) := by
  intro n
  induction n with
  | zero =>
    intro off _
    rfl
  | succ n ih =>
    intro off hno
    by_cases hemp : s.metadata ((b + off) % cfg.capacity) = EMPTY
    · have hnomatch : ¬(s.metadata ((b + off) % cfg.capacity) = m ∧
          s.keyAt ((b + off) % cfg.capacity) = k) :=
        fun hmk => hm (hmk.1.symm.trans hemp)
      have hL : findWrapGroup cfg s m k b off (n + 1) = .absent := by
        rw [findWrapGroup, if_pos hemp]
      have hrest : findGroupSpecSIMD.matchScanWrap cfg s m k b (off + 1) n = none := by
        cases hms : findGroupSpecSIMD.matchScanWrap cfg s m k b (off + 1) n with
        | none => rfl
        | some i =>
          exfalso
          obtain ⟨j, h1, h2, h3, h4⟩ :=
            specMatchScanWrap_eq_some cfg s m k b n (off + 1) i hms
          exact hno off j le_rfl (by omega) (by omega) hemp (h3 ▸ h4)
      have hscan : findGroupSpecSIMD.matchScanWrap cfg s m k b off (n + 1) = none := by
        rw [findGroupSpecSIMD.matchScanWrap, if_neg hnomatch]
        exact hrest
      have hfe : findGroupSpecSIMD.firstEmptyWrap cfg s b off (n + 1) =
          some ((b + off) % cfg.capacity) := by
        rw [findGroupSpecSIMD.firstEmptyWrap, if_pos hemp]
      rw [hL, hscan, hfe]
      rfl
    · by_cases hmk : s.metadata ((b + off) % cfg.capacity) = m ∧
          s.keyAt ((b + off) % cfg.capacity) = k
      · have hL : findWrapGroup cfg s m k b off (n + 1) =
            .found (s.valAt ((b + off) % cfg.capacity)) := by
          rw [findWrapGroup, if_neg hemp, if_pos hmk]
        have hscan : findGroupSpecSIMD.matchScanWrap cfg s m k b off (n + 1) =
            some ((b + off) % cfg.capacity) := by
          rw [findGroupSpecSIMD.matchScanWrap, if_pos hmk]
        rw [hL, hscan]
      · have hL : findWrapGroup cfg s m k b off (n + 1) =
            findWrapGroup cfg s m k b (off + 1) n := by
          rw [findWrapGroup, if_neg hemp, if_neg hmk]
        have hscan : findGroupSpecSIMD.matchScanWrap cfg s m k b off (n + 1) =
            findGroupSpecSIMD.matchScanWrap cfg s m k b (off + 1) n := by
          rw [findGroupSpecSIMD.matchScanWrap, if_neg hmk]
        have hfe : findGroupSpecSIMD.firstEmptyWrap cfg s b off (n + 1) =
            findGroupSpecSIMD.firstEmptyWrap cfg s b (off + 1) n := by
          rw [findGroupSpecSIMD.firstEmptyWrap, if_neg hemp]
        rw [hL, hscan, hfe]
        exact ih (off + 1) fun o1 o2 h1 h2 h3 => hno o1 o2 (by omega) h2 (by omega)

end SpecSIMD

/-! ### Point evaluations of the state writers -/

theorem placeAt_metadata_self (s : TState K V) (i m : Nat) (k : K) (v : V) (g : Nat) :
    (placeAt s i m k v g).metadata i = m := by
  simp [placeAt_metadata]

theorem placeAt_keyAt_self (s : TState K V) (i m : Nat) (k : K) (v : V) (g : Nat) :
    (placeAt s i m k v g).keyAt i = k := by
  simp [placeAt_keyAt]

theorem placeAt_valAt_self (s : TState K V) (i m : Nat) (k : K) (v : V) (g : Nat) :
    (placeAt s i m k v g).valAt i = v := by
  simp [placeAt_valAt]

theorem updateAt_valAt_self (s : TState K V) (i : Nat) (v : V) :
    (updateAt s i v).valAt i = v := by
  simp [updateAt_valAt]

/-- The size gate: at or above `max_inserts`, `insert` is a no-op returning
false. -/
theorem insert_at_cap (cfg : Config K) (s : TState K V) (k : K) (v : V)
    (h : cfg.max_inserts ≤ s.size) : insert cfg s k v = (false, s) := by
  simp only [insert, if_pos h]

/-! ### The claims -/

/-- C1: on every reachable container state, if `insert (k, v)` returns true
then a subsequent `find k` returns `some v` (a non-absent result whose value
is `v`); and every stored key sits at a probe position of its own salted
hash within the first `max_group_used + 1` groups, so the lookup depth limit
cannot miss a present key. -/
theorem claim_C1_insert_find_roundtrip (cfg : Config K) (d : K) (v0 : V)
    (s : TState K V) (k : K) (v : V) (hr : Reachable cfg d v0 s) :
    ((insert cfg s k v).1 = true → find cfg (insert cfg s k v).2 k = some v) ∧
    (∀ i, i < cfg.capacity → s.metadata i ≠ 0 →
      ∃ g off, g ≤ s.max_group_used ∧ off < GROUP_SIZE ∧
        probePos cfg (hash_with_salt cfg (s.keyAt i)) g off = i) := by
  have hinv := reachable_inv cfg d v0 s hr
  refine ⟨?_, ?_⟩
  · intro htrue
    have hinv' : Inv cfg (insert cfg s k v).2 := inv_insert cfg s k v hinv
    rcases insert_cases cfg s k v with heq |
      ⟨i, g, off, hoff, hgTG, hpos, hmk, heq⟩ |
      ⟨i, g, off, hoff, hgTG, hpos, hemp, hpre, heq⟩
    · rw [heq] at htrue
      cases htrue
    · have hiCp : i < cfg.capacity := by
        rw [hpos]
        exact probePos_lt cfg _ g off
      rw [heq] at hinv' ⊢
      have hocc' : (updateAt s i v).metadata i ≠ 0 := by
        rw [updateAt_metadata, hmk.1]
        exact make_metadata_ne_zero _
      have hkey' : (updateAt s i v).keyAt i = k := by
        rw [updateAt_keyAt]
        exact hmk.2
      rw [find_of_stored cfg (updateAt s i v) k hinv' i hiCp hocc' hkey',
        updateAt_valAt_self]
    · have hiCp : i < cfg.capacity := by
        rw [hpos]
        exact probePos_lt cfg _ g off
      rw [heq] at hinv' ⊢
      have hocc' : (placeAt s i (make_metadata (hash_with_salt cfg k)) k v g).metadata i ≠ 0 := by
        rw [placeAt_metadata_self]
        exact make_metadata_ne_zero _
      have hkey' : (placeAt s i (make_metadata (hash_with_salt cfg k)) k v g).keyAt i = k :=
        placeAt_keyAt_self s i _ k v g
      rw [find_of_stored cfg _ k hinv' i hiCp hocc' hkey', placeAt_valAt_self]
  · intro i hi hocc
    obtain ⟨g, off, hgmgu, _, hoff, hpos, _⟩ := hinv.located i hi hocc
    exact ⟨g, off, hgmgu, hoff, hpos⟩

/-- C1 witness: on the concrete capacity-4 container, inserting `(3, 7)`
into the empty table succeeds and `find 3` returns `7`. -/
theorem claim_C1_witness :
    find cfgW4 (insert cfgW4 (initState 0 0) 3 7).2 3 = some 7 :=
  (claim_C1_insert_find_roundtrip cfgW4 0 0 (initState 0 0) 3 7
    Reachable.init).1 rfl

/-- C2: `max_group_used` never decreases across an insert, and on every
reachable state it stays at most `total_groups - 1` where `total_groups`
is `min(⌈max_probe_limit/16⌉, ⌈capacity/16⌉)`. -/
theorem claim_C2_mgu_monotone_bounded (cfg : Config K) (d : K) (v0 : V)
    (s : TState K V) (hr : Reachable cfg d v0 s) :
    (∀ (k : K) (v : V),
      s.max_group_used ≤ ((insert cfg s k v).2).max_group_used) ∧
    s.max_group_used ≤
      min ((cfg.max_probe_limit + 15) / 16) ((cfg.capacity + 15) / 16) - 1 := by
  constructor
  · intro k v
    rcases insert_cases cfg s k v with heq |
      ⟨i, g, off, _, _, _, _, heq⟩ | ⟨i, g, off, _, _, _, _, _, heq⟩
    · rw [heq]
    · rw [heq]
      exact le_of_eq (updateAt_mgu s i v).symm
    · rw [heq]
      show s.max_group_used ≤
        (placeAt s i (make_metadata (hash_with_salt cfg k)) k v g).max_group_used
      rw [placeAt_mgu]
      split <;> omega
  · have hinv := reachable_inv cfg d v0 s hr
    have h1 := hinv.mgu_lt
    rw [max_groups_eq_min] at h1
    omega

/-- C2 witness: monotonicity and the bound evaluated on the concrete
capacity-4 container at its initial state. -/
theorem claim_C2_witness :
    (initState (0 : Nat) (0 : Nat)).max_group_used ≤
      ((insert cfgW4 (initState 0 0) 5 7).2).max_group_used ∧
    (initState (0 : Nat) (0 : Nat)).max_group_used ≤
      min ((cfgW4.max_probe_limit + 15) / 16) ((cfgW4.capacity + 15) / 16) - 1 :=
  ⟨(claim_C2_mgu_monotone_bounded cfgW4 0 0 (initState 0 0) Reachable.init).1 5 7,
   (claim_C2_mgu_monotone_bounded cfgW4 0 0 (initState 0 0) Reachable.init).2⟩

/-- C3 counterexample: the claim's iff fails in both directions on the code.
On a full capacity-1 container, inserting the already-stored key 0 returns
false without mutation although the key IS present in the first group (so
"fails only if the key is absent from the scan window" is wrong); and on a
capacity-18 container whose sixteen keys all collide into one probe group,
an insert of a fresh key fails although size < max_inserts (so "fails only
if size ≥ max_inserts" is wrong). -/
theorem claim_C3_counterexample :
    (insert cfgB1 tFull1 0 9).1 = false ∧
    (insert cfgB1 tFull1 0 9).2 = tFull1 ∧
    cfgB1.max_inserts ≤ tFull1.size ∧
    (∃ off, off < GROUP_SIZE ∧
      matchesKey tFull1 (make_metadata (hash_with_salt cfgB1 0)) 0
        (probePos cfgB1 (hash_with_salt cfgB1 0) 0 off)) ∧
    (insert cfgC18 (fillTable cfgC18 16) 99 5).1 = false ∧
    ¬cfgC18.max_inserts ≤ (fillTable cfgC18 16).size := by
  refine ⟨rfl, rfl, by decide, ⟨0, by decide, rfl, rfl⟩, rfl, by decide⟩

/-- C3 (amended): `insert (k, v)` returns false and leaves the container
unmutated iff size ≥ max_inserts (regardless of whether k is present), or
every slot of k's probe region — group 0, the non-greedy window and the
fallback groups, i.e. all of groups `0 … max_groups−1` — is occupied by an
entry that does not match k. -/
theorem claim_C3_amended (cfg : Config K) (s : TState K V) (k : K) (v : V) :
    ((insert cfg s k v).1 = false ∧ (insert cfg s k v).2 = s) ↔
      (cfg.max_inserts ≤ s.size ∨
        ∀ g, g < max_groups cfg → ∀ off, off < GROUP_SIZE →
          s.metadata (probePos cfg (hash_with_salt cfg k) g off) ≠ 0 ∧
          ¬matchesKey s (make_metadata (hash_with_salt cfg k)) k
            (probePos cfg (hash_with_salt cfg k) g off)) := by
  constructor
  · rintro ⟨hf, -⟩
    exact (insert_false_iff cfg s k v).mp hf
  · intro h
    rw [insert_false_eq cfg s k v ((insert_false_iff cfg s k v).mpr h)]
    exact ⟨rfl, rfl⟩

/-- C4: once size ≥ max_inserts, `insert` returns false immediately and the
whole state — metadata, entries, size, max_group_used — is unchanged, for
every key including one already stored (whose value is therefore not
updated). -/
theorem claim_C4_size_gate (cfg : Config K) (d : K) (v0 : V) (s : TState K V)
    (k : K) (v : V) (hr : Reachable cfg d v0 s)
    (hsz : cfg.max_inserts ≤ s.size) :
    insert cfg s k v = (false, s) := by
  simp only [insert, if_pos hsz]

/-- C4 witness: on the concrete full capacity-1 container, re-inserting the
stored key 0 with a new value fails and changes nothing. -/
theorem claim_C4_witness : insert cfgB1 tFull1 0 9 = (false, tFull1) :=
  claim_C4_size_gate cfgB1 0 0 tFull1 0 9
    (Reachable.step _ _ _ Reachable.init) (by decide)

/-- C5 counterexample: on a 20-slot state whose wrapping group at base 10
has an EMPTY slot before a fingerprint-and-key match, the scalar
wrapping-group walk returns absent while the SIMD semantics applied to the
same 16 slots finds the stored value — the two paths are not equal on every
container state. -/
theorem claim_C5_counterexample :
    cfgE20.capacity < 10 + GROUP_SIZE ∧
    findWrapGroup cfgE20 sWrap20 0x80 5 10 0 GROUP_SIZE = ScanRes.absent ∧
    findGroupSpecSIMD cfgE20 sWrap20 0x80 5 10 = ScanRes.found 42 ∧
    (ScanRes.absent : ScanRes Nat) ≠ ScanRes.found 42 :=
  ⟨by decide, rfl, rfl, by decide⟩

/-- C5 (amended): the scalar wrapping-group lookup walk and the SIMD scan
semantics applied to the same 16 slots agree on every group (the occupied
byte is nonzero and the group may wrap) in which no EMPTY slot strictly
precedes a fingerprint-and-key match — the discipline insertion maintains;
on arbitrary states the two can differ. -/
theorem claim_C5_amended (cfg : Config K) (s : TState K V) (m : Nat) (k : K)
    (b : Nat) (hm : m ≠ 0) (hwrap : cfg.capacity < b + GROUP_SIZE)
    (hno : ∀ o1 o2, o1 < o2 → o2 < GROUP_SIZE →
      s.metadata ((b + o1) % cfg.capacity) = 0 →
      ¬matchesKey s m k ((b + o2) % cfg.capacity)) :
    findWrapGroup cfg s m k b 0 GROUP_SIZE = findGroupSpecSIMD cfg s m k b := by
  rw [findGroupSpecSIMD]
  exact C5core cfg s m k b hm GROUP_SIZE 0
    (fun o1 o2 h1 h2 h3 h0 => hno o1 o2 h2 (by omega) h0)

/-- C5 witness: on the empty 20-slot container the two paths agree at the
wrapping base 10 (both report absent). -/
theorem claim_C5_witness :
    findWrapGroup cfgE20 (initState (0 : Nat) (0 : Nat)) 0x80 5 10 0 GROUP_SIZE =
      findGroupSpecSIMD cfgE20 (initState 0 0) 0x80 5 10 :=
  claim_C5_amended cfgE20 (initState 0 0) 0x80 5 10 (by decide) (by decide)
    (fun o1 o2 _ _ _ hmk => absurd hmk.1 (by simp [initState]))

/-- C6 counterexample: for capacity 100 and delta = 3/100 the constructor
sets max_probe_limit to 20 — the truncation (floor) of 4·log₂(1/delta) —
while the claim's exact ceiling gives 21; and for capacity 8 the code clamps
to 16 first and to the capacity last, giving 8, while the claim's formula
max(16, min(C, ⌈·⌉)) gives 16. -/
theorem claim_C6_counterexample :
    (mkConfig (id : Nat → Nat) 100 3 100 (by norm_num) (by norm_num)
      (by norm_num)).max_probe_limit = 20 ∧
    spec_max_probe_limit 100 3 100 = 21 ∧
    (mkConfig (id : Nat → Nat) 8 3 100 (by norm_num) (by norm_num)
      (by norm_num)).max_probe_limit = 8 ∧
    spec_max_probe_limit 8 3 100 = 16 := by
  have hclog : Nat.clog 2 ((100 ^ 4 + 3 ^ 4 - 1) / 3 ^ 4) = 21 := by
    have h1 : (100 ^ 4 + 3 ^ 4 - 1) / 3 ^ 4 = 1234568 := by norm_num
    rw [h1]
    refine le_antisymm ?_ ?_
    · exact (Nat.le_pow_iff_clog_le (by norm_num)).mp (by norm_num)
    · have h2 := (Nat.pow_lt_iff_lt_clog (show (1 : Nat) < 2 by norm_num)).mp
        (show (2 : Nat) ^ 20 < 1234568 by norm_num)
      omega
  refine ⟨rfl, ?_, rfl, ?_⟩
  · unfold spec_max_probe_limit
    rw [hclog]
    decide
  · unfold spec_max_probe_limit
    rw [hclog]
    decide

/-- C6 (amended): construction sets
`max_probe_limit = min(C, max(16, f))` where f = ⌊4·log₂(1/delta)⌋ — the
floor produced by the `static_cast` truncation, characterised exactly by
2^f ≤ (1/delta)^4 < 2^(f+1) — with the 16-clamp applied before the
capacity-clamp (so for C < 16 the result is C, not 16). -/
theorem claim_C6_amended {K : Type} (hash : K → Nat) (C n d : Nat)
    (hC : 0 < C) (hn : 0 < n) (hnd : n < d) :
    ∃ f, 2 ^ f * n ^ 4 ≤ d ^ 4 ∧ d ^ 4 < 2 ^ (f + 1) * n ^ 4 ∧
      (mkConfig hash C n d hC hn hnd).max_probe_limit =
        min C (max GROUP_SIZE f) := by
  have h2 : 0 < n ^ 4 := pow_pos hn 4
  have hq : 0 < d ^ 4 / n ^ 4 :=
    Nat.div_pos (Nat.pow_le_pow_left (le_of_lt hnd) 4) h2
  obtain ⟨hlo, hhi⟩ := log2floor_spec (d ^ 4 / n ^ 4) hq
  refine ⟨log2floor (d ^ 4 / n ^ 4), ?_, ?_, rfl⟩
  · calc 2 ^ log2floor (d ^ 4 / n ^ 4) * n ^ 4
        ≤ d ^ 4 / n ^ 4 * n ^ 4 := Nat.mul_le_mul_right _ hlo
      _ ≤ d ^ 4 := Nat.div_mul_le_self _ _
  · exact (Nat.div_lt_iff_lt_mul h2).mp hhi

/-- C6 witness: the characterisation instantiated at capacity 100,
delta = 3/100. -/
theorem claim_C6_witness :
    ∃ f, 2 ^ f * 3 ^ 4 ≤ 100 ^ 4 ∧ 100 ^ 4 < 2 ^ (f + 1) * 3 ^ 4 ∧
      (mkConfig (id : Nat → Nat) 100 3 100 (by norm_num) (by norm_num)
        (by norm_num)).max_probe_limit = min 100 (max GROUP_SIZE f) :=
  claim_C6_amended id 100 3 100 (by norm_num) (by norm_num) (by norm_num)

/-- C7 counterexample: with capacity 10 and delta = 15/100 the ninth insert
succeeds yet leaves only one EMPTY slot — fewer than ⌈delta·C⌉ = 2 — so the
container does not keep ⌈delta·C⌉ slots empty after every successful
insert. -/
theorem claim_C7_counterexample :
    (insert cfgD10 (fillTable cfgD10 8) 8 100).1 = true ∧
    fillTable cfgD10 9 = (insert cfgD10 (fillTable cfgD10 8) 8 100).2 ∧
    emptyCount cfgD10 (fillTable cfgD10 9) = 1 ∧
    (fillTable cfgD10 9).size = 9 ∧
    (1 : Nat) < (15 * 10 + 100 - 1) / 100 :=
  ⟨rfl, rfl, rfl, rfl, by norm_num⟩

/-- C7 (amended): a container constructed with capacity C and
delta = n/d keeps at least ⌊delta·C⌋ — not ⌈delta·C⌉ — slots EMPTY: after
every successful insert, size ≤ C − ⌊delta·C⌋ and at least ⌊delta·C⌋
metadata bytes are 0x00. -/
theorem claim_C7_amended (hash : K → Nat) (C n d : Nat)
    (hC : 0 < C) (hn : 0 < n) (hnd : n < d) (dflt : K) (v0 : V)
    (s : TState K V) (k : K) (v : V)
    (hr : Reachable (mkConfig hash C n d hC hn hnd) dflt v0 s)
    (hsucc : (insert (mkConfig hash C n d hC hn hnd) s k v).1 = true) :
    (insert (mkConfig hash C n d hC hn hnd) s k v).2.size ≤ C - n * C / d ∧
    n * C / d ≤ emptyCount (mkConfig hash C n d hC hn hnd)
      (insert (mkConfig hash C n d hC hn hnd) s k v).2 := by
  have hgate : ¬(mkConfig hash C n d hC hn hnd).max_inserts ≤ s.size := by
    intro hge
    have hf := (insert_false_iff (mkConfig hash C n d hC hn hnd) s k v).mpr
      (Or.inl hge)
    cases hf.symm.trans hsucc
  have hMI : (mkConfig hash C n d hC hn hnd).max_inserts = C - n * C / d := rfl
  have hszlt : s.size < C - n * C / d := by omega
  have hsz' : (insert (mkConfig hash C n d hC hn hnd) s k v).2.size ≤ s.size + 1 := by
    rcases insert_cases (mkConfig hash C n d hC hn hnd) s k v with heq |
      ⟨i, g, off, _, _, _, _, heq⟩ | ⟨i, g, off, _, _, _, _, _, heq⟩ <;> rw [heq]
    · exact Nat.le_succ _
    · rw [updateAt_size]
      omega
    · rw [placeAt_size]
  have hquot : n * C / d ≤ C := by
    have h1 : n * C / d ≤ d * C / d :=
      Nat.div_le_div_right (Nat.mul_le_mul_right C (le_of_lt hnd))
    rw [Nat.mul_div_cancel_left C (show 0 < d by omega)] at h1
    exact h1
  have hinv' := inv_insert (mkConfig hash C n d hC hn hnd) s k v
    (reachable_inv _ dflt v0 s hr)
  have hsum := occ_add_empty (mkConfig hash C n d hC hn hnd)
    (insert (mkConfig hash C n d hC hn hnd) s k v).2
  have hszocc := hinv'.sz
  have hcap : (mkConfig hash C n d hC hn hnd).capacity = C := rfl
  constructor
  · omega
  · omega

/-- C7 witness: the amended bound evaluated on the concrete capacity-10,
delta = 15/100 container after its ninth successful insert. -/
theorem claim_C7_witness :
    (insert cfgD10 (fillTable cfgD10 8) 8 100).2.size ≤ 10 - 15 * 10 / 100 ∧
    15 * 10 / 100 ≤ emptyCount cfgD10 (insert cfgD10 (fillTable cfgD10 8) 8 100).2 :=
  claim_C7_amended id 10 15 100 (by decide) (by decide) (by decide) 0 0
    (fillTable cfgD10 8) 8 100 (fillTable_reachable cfgD10 8) rfl

/-- C8 counterexample: with the salted hash 2^64 − 1 and capacity 10 the
group-1 base computed by the code is 5 — the 64-bit sum wraps before the
capacity modulus — while the claim's exact (h + 16·1) mod 10 is 1. -/
theorem claim_C8_counterexample :
    group_base cfgF10 (2 ^ 64 - 1) 1 = 5 ∧
    (2 ^ 64 - 1 + 16 * 1) % cfgF10.capacity = 1 ∧
    (5 : Nat) ≠ 1 :=
  ⟨rfl, rfl, by decide⟩

/-- C8 (amended): the base of group j is ((h + 16·j) mod 2^64) mod C — the
sum is 64-bit machine arithmetic, which coincides with (h + 16·j) mod C
whenever h + 16·j < 2^64 — the slot at offset k within a group is
(base + k) mod C, and an insert mutates at most one slot, always a probe
position of the key's salted hash. -/
theorem claim_C8_amended (cfg : Config K) (h g off b : Nat) (s : TState K V)
    (k : K) (v : V) :
    group_base cfg h g = ((h + GROUP_SIZE * g) % 2 ^ 64) % cfg.capacity ∧
    slot_in_group cfg b off = (b + off) % cfg.capacity ∧
    probePos cfg h g off = (group_base cfg h g + off) % cfg.capacity ∧
    (h + GROUP_SIZE * g < 2 ^ 64 →
      group_base cfg h g = (h + GROUP_SIZE * g) % cfg.capacity) ∧
    ((insert cfg s k v).2 = s ∨
      ∃ i g' off', off' < GROUP_SIZE ∧ g' < max_groups cfg ∧
        i = probePos cfg (hash_with_salt cfg k) g' off' ∧
        ∀ j, j ≠ i →
          (insert cfg s k v).2.metadata j = s.metadata j ∧
          (insert cfg s k v).2.keyAt j = s.keyAt j ∧
          (insert cfg s k v).2.valAt j = s.valAt j) := by
  refine ⟨rfl, rfl, rfl, ?_, ?_⟩
  · intro hlt
    unfold group_base U64
    rw [Nat.mod_eq_of_lt hlt]
  · rcases insert_cases cfg s k v with heq |
      ⟨i, g', off', hoff, hgTG, hpos, hmk, heq⟩ |
      ⟨i, g', off', hoff, hgTG, hpos, hemp, hpre, heq⟩
    · rw [heq]
      exact Or.inl rfl
    · rw [heq]
      refine Or.inr ⟨i, g', off', hoff, hgTG, hpos, ?_⟩
      intro j hj
      refine ⟨rfl, rfl, ?_⟩
      rw [updateAt_valAt, if_neg hj]
    · rw [heq]
      refine Or.inr ⟨i, g', off', hoff, hgTG, hpos, ?_⟩
      intro j hj
      exact ⟨by rw [placeAt_metadata, if_neg hj],
        by rw [placeAt_keyAt, if_neg hj],
        by rw [placeAt_valAt, if_neg hj]⟩

/-- C8 witness: the no-wrap form of the base formula evaluated at hash 3,
group 1, capacity 10. -/
theorem claim_C8_witness :
    group_base cfgF10 3 1 = (3 + GROUP_SIZE * 1) % cfgF10.capacity :=
  (claim_C8_amended cfgF10 3 1 0 0 (initState (0 : Nat) (0 : Nat)) 0
    0).2.2.2.1 (by norm_num [GROUP_SIZE])

/-- C9 counterexample: this capacity-18 container (one probe group, all
keys colliding) holds 16 keys, one below max_inserts = 17, yet inserting
the absent key 99 returns false — probe exhaustion defeats "insertion at
size = max_inserts − 1 succeeds for a new key". -/
theorem claim_C9_counterexample :
    (fillTable cfgC18 16).size + 1 = cfgC18.max_inserts ∧
    (∀ i, i < cfgC18.capacity →
      ¬((fillTable cfgC18 16).metadata i ≠ 0 ∧
        (fillTable cfgC18 16).keyAt i = 99)) ∧
    (insert cfgC18 (fillTable cfgC18 16) 99 5).1 = false := by
  refine ⟨rfl, by decide, rfl⟩

/-- C9 (amended): at size = max_inserts − 1, inserting an absent key
succeeds provided some probe position of the key is still EMPTY (probe
exhaustion being the only other failure mode); the new size is exactly
max_inserts and every further insert of any key then fails. -/
theorem claim_C9_amended (cfg : Config K) (d : K) (v0 : V) (s : TState K V)
    (k : K) (v : V) (hr : Reachable cfg d v0 s)
    (hsz : s.size + 1 = cfg.max_inserts)
    (habsent : ∀ i, i < cfg.capacity → ¬(s.metadata i ≠ 0 ∧ s.keyAt i = k))
    (hempty : ∃ g off, g < max_groups cfg ∧ off < GROUP_SIZE ∧
      s.metadata (probePos cfg (hash_with_salt cfg k) g off) = 0) :
    (insert cfg s k v).1 = true ∧
    (insert cfg s k v).2.size = cfg.max_inserts ∧
    ∀ (k' : K) (v' : V), (insert cfg (insert cfg s k v).2 k' v').1 = false := by
  obtain ⟨g0, off0, hg0, hoff0, hemp0⟩ := hempty
  have htrue : (insert cfg s k v).1 = true := by
    cases hb : (insert cfg s k v).1 with
    | true => rfl
    | false =>
      exfalso
      rcases (insert_false_iff cfg s k v).mp hb with hgate | hall
      · omega
      · exact (hall g0 hg0 off0 hoff0).1 hemp0
  have hsize' : (insert cfg s k v).2.size = cfg.max_inserts := by
    rcases insert_cases cfg s k v with heq |
      ⟨i, g, off, hoff, hgTG, hpos, hmk, heq⟩ |
      ⟨i, g, off, hoff, hgTG, hpos, hemp, hpre, heq⟩
    · rw [heq] at htrue
      cases htrue
    · exfalso
      have hiCp : i < cfg.capacity := by
        rw [hpos]
        exact probePos_lt cfg _ g off
      refine habsent i hiCp ⟨?_, hmk.2⟩
      rw [hmk.1]
      exact make_metadata_ne_zero _
    · rw [heq]
      rw [show ((true, placeAt s i (make_metadata (hash_with_salt cfg k)) k v g).2).size
        = s.size + 1 from rfl]
      exact hsz
  refine ⟨htrue, hsize', ?_⟩
  intro k' v'
  have hge : cfg.max_inserts ≤ (insert cfg s k v).2.size := le_of_eq hsize'.symm
  rw [insert_at_cap cfg (insert cfg s k v).2 k' v' hge]

/-- C9 witness: the amended statement evaluated on the capacity-4 container
holding one key (size 1 = max_inserts − 1), inserting the absent key 1. -/
theorem claim_C9_witness :
    (insert cfgW4 (fillTable cfgW4 1) 1 7).1 = true ∧
    (insert cfgW4 (fillTable cfgW4 1) 1 7).2.size = cfgW4.max_inserts ∧
    ∀ (k' : Nat) (v' : Nat),
      (insert cfgW4 (insert cfgW4 (fillTable cfgW4 1) 1 7).2 k' v').1 = false :=
  claim_C9_amended cfgW4 0 0 (fillTable cfgW4 1) 1 7 (fillTable_reachable cfgW4 1)
    (by decide) (by decide) ⟨0, 0, by decide, by decide, by decide⟩

/-- C10: during insert's candidate collection the guarded window loop
computes the same result as the guard-free loop — the 128-entry buffer cap
is never the reason collection stops — and the collected candidate list has
at most 7·16 = 112 entries, so every buffered write lands at an index below
112 < 128. -/
theorem claim_C10_candidate_bound (cfg : Config K) (s : TState K V) (k : K) :
    window_result cfg s (make_metadata (hash_with_salt cfg k)) k
      (hash_with_salt cfg k) =
      windowLoopNG cfg s (make_metadata (hash_with_salt cfg k)) k
        (hash_with_salt cfg k) [] (List.range' 1 (window_width cfg s - 1)) ∧
    ∀ res, window_result cfg s (make_metadata (hash_with_salt cfg k)) k
        (hash_with_salt cfg k) = .cands res → res.length ≤ 112 := by
  have hw8 : window_width cfg s ≤ 8 := window_width_le_8 cfg s
  have hlen : ([] : List Cand).length +
      GROUP_SIZE * (List.range' 1 (window_width cfg s - 1)).length ≤ 128 := by
    rw [List.length_range']
    simp only [GROUP_SIZE, List.length_nil]
    omega
  constructor
  · rw [window_result]
    exact windowLoop_eq_NG cfg s _ k _ _ _ hlen
  · intro res hres
    rw [window_result, windowLoop_eq_NG cfg s _ k _ _ _ hlen] at hres
    have hbound := windowLoopNG_cands_length cfg s _ k _ _ _ _ hres
    rw [List.length_range'] at hbound
    simp only [GROUP_SIZE, List.length_nil] at hbound
    omega

end GroupedSIMDElastic
